import Mathlib

/-!
# Verification of the rqlite storage core

Shallow embedding of the storage layer of a read-only SQLite file reader
(`src/page.rs`, `src/pager.rs`, `src/cursor.rs`) together with proofs about
its specification claims.

Conventions of the embedding:
* Machine integers are modelled as `Nat` / `Int` with explicit wrap-around
  (`% 2^64`) where the Rust code can overflow, and two's-complement
  reinterpretation where the code casts bit patterns.
* Byte buffers are `List Nat`; a byte read out of bounds (a Rust slice/index
  panic) makes the modelled function return `none` or a `fatal` outcome.
* Fallible Rust functions (`anyhow::Result`) return `Option`/`Except`-style
  results; a Rust `panic!`/`expect` is the distinguished `Outcome.fatal`,
  kept apart from recoverable errors (`Outcome.err`).
-/

namespace Rqlite

/-- Reinterpret a 64-bit unsigned bit pattern as a signed two's-complement
integer, as Rust's `as i64` / `i64` arithmetic does. -/
def i64OfBits (n : Nat) : Int :=
  if n < 2 ^ 63 then (n : Int) else (n : Int) - 2 ^ 64

/-- Reinterpret a 16-bit unsigned bit pattern as a signed two's-complement
integer (`i16::from_be_bytes`). -/
def i16OfBits (n : Nat) : Int :=
  if n < 2 ^ 15 then (n : Int) else (n : Int) - 2 ^ 16

/-- Reinterpret a 32-bit unsigned bit pattern as a signed two's-complement
integer (`i32::from_be_bytes`). -/
def i32OfBits (n : Nat) : Int :=
  if n < 2 ^ 31 then (n : Int) else (n : Int) - 2 ^ 32

/-! ## Varint decoder (`pager.rs`, `read_varint_at`)

The Rust loop accumulates into an `i64`; shifts wrap at 64 bits, which the
model makes explicit with `% 2 ^ 64`.  The final value is the accumulated
64-bit pattern reinterpreted as signed. -/

/-- The body of the `while size < 9` loop of `read_varint_at`.
`size` is the number of bytes consumed so far and `result` the accumulated
(unsigned) 64-bit pattern.  The loop condition `size < 9` is carried as the
structurally decreasing iteration count `rem = 9 - size`, so that `rem = 0`
exactly when the loop guard fails.  Returns `(size, result)` on loop exit,
`none` if `buffer[offset]` is out of bounds (a Rust index panic). -/
def varintLoop (buffer : List Nat) :
    Nat → Nat → Nat → Nat → Option (Nat × Nat)
  | 0, _, size, result => some (size, result)
  | rem + 1, offset, size, result =>
    match buffer[offset]? with
    | none => none
    | some current_byte =>
      let result' :=
        if size == 8 then ((result <<< 8) ||| current_byte) % 2 ^ 64
        else ((result <<< 7) ||| (current_byte &&& 0x7F)) % 2 ^ 64
      if current_byte &&& 0x80 == 0 then some (size + 1, result')
      else varintLoop buffer rem (offset + 1) (size + 1) result'

/-- `read_varint_at`: returns the number of bytes consumed and the decoded
value, reinterpreted as signed two's-complement `i64`. -/
def read_varint_at (buffer : List Nat) (offset : Nat) : Option (Nat × Int) :=
  (varintLoop buffer 9 offset 0 0).map fun p => (p.1, i64OfBits p.2)

/-- The varint loop's accumulation, expressed directly over the list of
consumed bytes (with `size` the index of the first byte in the varint). -/
def varintAccum : Nat → Nat → List Nat → Nat
  | _, acc, [] => acc
  | size, acc, b :: bs =>
    varintAccum (size + 1)
      (if size == 8 then ((acc <<< 8) ||| b) % 2 ^ 64
       else ((acc <<< 7) ||| (b &&& 0x7F)) % 2 ^ 64) bs

/-- Specification-side value of a varint whose encoding consumed exactly the
given bytes: the low 7 bits of each of the first eight bytes accumulated
big-endian first, and all 8 bits of a ninth byte when present. -/
def varintSpecValue (bytes : List Nat) : Nat :=
  if bytes.length = 9 then
    ((bytes.take 8).foldl (fun a b => a * 128 + b % 128) 0) * 256 +
      (bytes[8]?.getD 0)
  else
    bytes.foldl (fun a b => a * 128 + b % 128) 0

/-! ## Page structures (`page.rs`) -/

structure DbHeader where
  page_size : Nat
  page_reserved_size : Nat
  deriving DecidableEq, Repr

def DbHeader.usable_page_size (h : DbHeader) : Nat :=
  h.page_size - h.page_reserved_size

inductive PageType where
  | tableLeaf
  | tableInterior
  deriving DecidableEq, Repr

structure PageHeader where
  page_type : PageType
  cell_count : Nat
  rightmost_pointer : Option Nat
  deriving DecidableEq, Repr

/-- `PageHeader::local_payload_size`: maximum number of payload bytes stored
locally in a table-leaf cell, per the SQLite overflow-threshold formula.
Interior pages have no payload (`bail!` modelled as `none`). -/
def PageHeader.local_payload_size (self : PageHeader) (db_header : DbHeader)
    (payload_size : Nat) : Option Nat :=
  match self.page_type with
  | .tableInterior => none
  | .tableLeaf =>
    let usable := db_header.usable_page_size
    let max_size := usable - 35
    if payload_size ≤ max_size then some payload_size
    else
      let min_size := (usable - 12) * 32 / 255 - 23
      let k := min_size + (payload_size - min_size) % (usable - 4)
      some (if k ≤ max_size then k else min_size)

/-- `PageHeader::local_and_overflow_size`: splits a total payload size into
the locally stored part and the part that lives on overflow pages.
`payload_size.saturating_sub local` is `Nat` subtraction. -/
def PageHeader.local_and_overflow_size (self : PageHeader)
    (db_header : DbHeader) (payload_size : Nat) :
    Option (Nat × Option Nat) :=
  (self.local_payload_size db_header payload_size).map fun loc =>
    if loc == payload_size then (loc, none)
    else (loc, some (payload_size - loc))

structure TableLeafCell where
  payload : List Nat
  first_overflow : Option Nat
  deriving DecidableEq, Repr

structure TableInteriorCell where
  left_child_page : Nat
  deriving DecidableEq, Repr

inductive Cell where
  | tableLeaf (c : TableLeafCell)
  | tableInterior (c : TableInteriorCell)
  deriving DecidableEq, Repr

structure Page where
  header : PageHeader
  cells : List Cell
  deriving DecidableEq, Repr

/-- `Page::get` (`self.cells.get(n)`). -/
def Page.get (p : Page) (n : Nat) : Option Cell :=
  p.cells[n]?

structure OverflowPage where
  next : Option Nat
  payload : List Nat
  deriving DecidableEq, Repr

/-! ## Database header parsing (`pager.rs`, `parse_header`) -/

/-- `b"SQLite format 3\0"`. -/
def headerPrefix : List Nat :=
  [0x53, 0x51, 0x4C, 0x69, 0x74, 0x65, 0x20, 0x66, 0x6F, 0x72, 0x6D, 0x61,
   0x74, 0x20, 0x33, 0x00]

/-- `u16::is_power_of_two` (`count_ones() == 1`). -/
def isPowerOfTwoU16 (n : Nat) : Bool :=
  n ≠ 0 && n &&& (n - 1) == 0

/-- `read_be_word_at`: big-endian `u16` at `offset`; `none` models the panic
on an out-of-bounds slice. -/
def read_be_word_at (input : List Nat) (offset : Nat) : Option Nat := do
  let b0 ← input[offset]?
  let b1 ← input[offset + 1]?
  pure (b0 * 256 + b1)

/-- `read_be_double_at`: big-endian `u32` at `offset`. -/
def read_be_double_at (input : List Nat) (offset : Nat) : Option Nat := do
  let b0 ← input[offset]?
  let b1 ← input[offset + 1]?
  let b2 ← input[offset + 2]?
  let b3 ← input[offset + 3]?
  pure (((b0 * 256 + b1) * 256 + b2) * 256 + b3)

/-- `parse_header`: checks the 16-byte magic prefix, then decodes the raw
page-size word at offset 16 (`1` is the 65536 sentinel, otherwise any value
for which `u16::is_power_of_two` holds is accepted) and reads the reserved
byte count at offset 20. -/
def parse_header (buffer : List Nat) : Option DbHeader := do
  if headerPrefix.isPrefixOf buffer then
    let page_size_raw ← read_be_word_at buffer 16
    let page_size ←
      if page_size_raw = 1 then some 65536
      else if isPowerOfTwoU16 page_size_raw then some page_size_raw
      else none
    let page_reserved_size ← buffer[20]?
    pure ⟨page_size, page_reserved_size⟩
  else
    none

/-! ## Record decoding (`cursor.rs`) -/

inductive RecordFieldType where
  | null
  | i8
  | i16
  | i24
  | i32
  | i48
  | i64
  | float
  | zero
  | one
  | string (n : Nat)
  | blob (n : Nat)
  deriving DecidableEq, Repr

structure RecordField where
  offset : Nat
  field_type : RecordFieldType
  deriving DecidableEq, Repr

/-- `RecordField::end_offset` exactly as in the source: note that the source
uses size `5` for `I48`. -/
def RecordField.end_offset (self : RecordField) : Nat :=
  let size :=
    match self.field_type with
    | .null => 0
    | .i8 => 1
    | .i16 => 2
    | .i24 => 3
    | .i32 => 4
    | .i48 => 5
    | .i64 => 8
    | .float => 8
    | .zero => 0
    | .one => 0
    | .string size => size
    | .blob size => size
  self.offset + size

structure RecordHeader where
  fields : List RecordField
  deriving DecidableEq, Repr

/-- The discriminant table of `parse_record_header`: serial-type code to
`(field_type, field_size)`.  Codes 10 and 11 (and negatives) are rejected. -/
def fieldTypeAndSize (discriminant : Int) : Option (RecordFieldType × Nat) :=
  if discriminant = 0 then some (.null, 0)
  else if discriminant = 1 then some (.i8, 1)
  else if discriminant = 2 then some (.i16, 2)
  else if discriminant = 3 then some (.i24, 3)
  else if discriminant = 4 then some (.i32, 4)
  else if discriminant = 5 then some (.i48, 6)
  else if discriminant = 6 then some (.i64, 8)
  else if discriminant = 7 then some (.float, 8)
  else if discriminant = 8 then some (.zero, 0)
  else if discriminant = 9 then some (.one, 0)
  else if 12 ≤ discriminant ∧ discriminant % 2 = 0 then
    some (.blob ((discriminant - 12) / 2).toNat, ((discriminant - 12) / 2).toNat)
  else if 13 ≤ discriminant ∧ discriminant % 2 = 1 then
    some (.string ((discriminant - 13) / 2).toNat, ((discriminant - 13) / 2).toNat)
  else none

/-- The `while !buffer.is_empty()` loop of `parse_record_header`.  Each
iteration reads one type-code varint and drops the consumed bytes; `fuel`
(initially the buffer length) bounds the iteration count, which the Rust
loop bounds by consuming at least one byte per iteration. -/
def parseFieldsLoop : Nat → List Nat → Nat → Option (List RecordField)
  | _, [], _ => some []
  | 0, _ :: _, _ => none
  | fuel + 1, b :: bs, current_offset =>
    match read_varint_at (b :: bs) 0 with
    | none => none
    | some (discriminant_size, discriminant) =>
      match fieldTypeAndSize discriminant with
      | none => none
      | some (field_type, field_size) =>
        match parseFieldsLoop fuel ((b :: bs).drop discriminant_size)
            (current_offset + field_size) with
        | none => none
        | some fields =>
          some (⟨current_offset, field_type⟩ :: fields)

/-- `parse_record_header`: reads the header-length varint, then walks the
type codes in `buffer[varint_size..header_length]`.  The Rust slice
operation panics (modelled `none`) unless
`varint_size ≤ header_length ≤ buffer.len()` (a negative `header_length`
cast `as usize` is astronomically large and also panics). -/
def parse_record_header (buffer : List Nat) : Option RecordHeader :=
  match read_varint_at buffer 0 with
  | none => none
  | some (varint_size, header_length) =>
    if (varint_size : Int) ≤ header_length ∧
        header_length.toNat ≤ buffer.length then
      let slice := (buffer.take header_length.toNat).drop varint_size
      match parseFieldsLoop slice.length slice header_length.toNat with
      | none => none
      | some fields => some ⟨fields⟩
    else none

/-! ## Fixed-width readers (`cursor.rs`) and `Cursor::field` -/

/-- Outcome of a fallible Rust computation: `ok`, a recoverable
`anyhow::Error` (`err`), or a panic (`fatal`).  Panics and recoverable
errors are deliberately kept distinct. -/
inductive ROut (α : Type _) where
  | ok (a : α)
  | err
  | fatal
  deriving DecidableEq, Repr

def ROut.map {α β : Type _} (f : α → β) : ROut α → ROut β
  | .ok a => .ok (f a)
  | .err => .err
  | .fatal => .fatal

/-- Big-endian interpretation of a byte list. -/
def beBits (l : List Nat) : Nat :=
  l.foldl (fun a b => a * 256 + b) 0

/-- `<&[u8] as TryInto<[u8; n]>>::try_into`: succeeds only when the slice
has exactly `n` elements. -/
def arrayOfSize (n : Nat) (s : List Nat) : Option (List Nat) :=
  if s.length = n then some s else none

/-- `read_i8_at`: `input[offset] as i64`.  A `u8` cast to `i64` is a plain
(zero-extending) widening. -/
def read_i8_at (input : List Nat) (offset : Nat) : ROut Int :=
  match input[offset]? with
  | none => .fatal
  | some b => .ok (b : Int)

/-- `read_i16_at`: two-byte big-endian slice into `i16::from_be_bytes`. -/
def read_i16_at (input : List Nat) (offset : Nat) : ROut Int :=
  if offset + 2 ≤ input.length then
    match arrayOfSize 2 ((input.drop offset).take 2) with
    | some a => .ok (i16OfBits (beBits a))
    | none => .fatal
  else .fatal

/-- `read_i24_at`: the source takes the 3-byte slice
`input[offset..offset + 3]` and `try_into`s it into the 4-byte array that
`i32::from_be_bytes` requires; the conversion's `unwrap` panics. -/
def read_i24_at (input : List Nat) (offset : Nat) : ROut Int :=
  if offset + 3 ≤ input.length then
    match arrayOfSize 4 ((input.drop offset).take 3) with
    | some a => .ok (Int.land (i32OfBits (beBits a)) 0xFFFFFF)
    | none => .fatal
  else .fatal

/-- `read_i32_at`: four-byte big-endian slice into `i32::from_be_bytes`. -/
def read_i32_at (input : List Nat) (offset : Nat) : ROut Int :=
  if offset + 4 ≤ input.length then
    match arrayOfSize 4 ((input.drop offset).take 4) with
    | some a => .ok (i32OfBits (beBits a))
    | none => .fatal
  else .fatal

/-- `read_i48_at`: the source takes the 6-byte slice
`input[offset..offset + 6]` and `try_into`s it into the 8-byte array that
`i64::from_be_bytes` requires; the conversion's `unwrap` panics. -/
def read_i48_at (input : List Nat) (offset : Nat) : ROut Int :=
  if offset + 6 ≤ input.length then
    match arrayOfSize 8 ((input.drop offset).take 6) with
    | some a => .ok (Int.land (i64OfBits (beBits a)) 0xFFFFFFFFFFFF)
    | none => .fatal
  else .fatal

/-- `read_i64_at`: eight-byte big-endian slice into `i64::from_be_bytes`. -/
def read_i64_at (input : List Nat) (offset : Nat) : ROut Int :=
  if offset + 8 ≤ input.length then
    match arrayOfSize 8 ((input.drop offset).take 8) with
    | some a => .ok (i64OfBits (beBits a))
    | none => .fatal
  else .fatal

/-- `read_f64_at`: eight-byte big-endian slice into `f64::from_be_bytes`.
The model carries the raw IEEE-754 bit pattern; it is never computed
with. -/
def read_f64_at (input : List Nat) (offset : Nat) : ROut Nat :=
  if offset + 8 ≤ input.length then
    match arrayOfSize 8 ((input.drop offset).take 8) with
    | some a => .ok (beBits a)
    | none => .fatal
  else .fatal

/-- Is `c` a UTF-8 continuation byte (`0x80..=0xBF`)? -/
def utf8Cont (c : Nat) : Bool :=
  0x80 ≤ c && c ≤ 0xBF

/-- The UTF-8 validity check performed by `std::str::from_utf8` (RFC 3629:
no overlong forms, no surrogates, at most `U+10FFFF`). -/
def validUtf8 : List Nat → Bool
  | [] => true
  | b :: rest =>
    if b ≤ 0x7F then validUtf8 rest
    else
      match rest with
      | [] => false
      | c1 :: rest1 =>
        if 0xC2 ≤ b && b ≤ 0xDF then utf8Cont c1 && validUtf8 rest1
        else
          match rest1 with
          | [] => false
          | c2 :: rest2 =>
            if b = 0xE0 then
              (0xA0 ≤ c1 && c1 ≤ 0xBF) && utf8Cont c2 && validUtf8 rest2
            else if (0xE1 ≤ b && b ≤ 0xEC) || b = 0xEE || b = 0xEF then
              utf8Cont c1 && utf8Cont c2 && validUtf8 rest2
            else if b = 0xED then
              (0x80 ≤ c1 && c1 ≤ 0x9F) && utf8Cont c2 && validUtf8 rest2
            else
              match rest2 with
              | [] => false
              | c3 :: rest3 =>
                if b = 0xF0 then
                  (0x90 ≤ c1 && c1 ≤ 0xBF) && utf8Cont c2 && utf8Cont c3 &&
                    validUtf8 rest3
                else if 0xF1 ≤ b && b ≤ 0xF3 then
                  utf8Cont c1 && utf8Cont c2 && utf8Cont c3 && validUtf8 rest3
                else if b = 0xF4 then
                  (0x80 ≤ c1 && c1 ≤ 0x8F) && utf8Cont c2 && utf8Cont c3 &&
                    validUtf8 rest3
                else false

/-- `Value`: a decoded field.  Floats carry their IEEE-754 bit pattern. -/
inductive Value where
  | null
  | int (i : Int)
  | float (bits : Nat)
  | string (bytes : List Nat)
  | blob (bytes : List Nat)
  deriving DecidableEq, Repr

/-- `Cursor` state: the parsed record header, the materialized payload
bytes, and the head of the remaining overflow chain.  The pager handle is
represented by the overflow-page store passed to `Cursor.field`. -/
structure Cursor where
  header : RecordHeader
  payload : List Nat
  next_overflow_page : Option Nat
  deriving DecidableEq, Repr

/-- The `while buffer.len() < size && let Some(next) = next_page` loop of
`OverflowScanner::read`.  `fuel` bounds the iteration count; the Rust loop
can only fail to terminate on a cyclic overflow chain, which no well-formed
file contains. -/
def ovReadLoop (readOv : Nat → Option OverflowPage) :
    Nat → Option Nat → Nat → List Nat → ROut (Option Nat × List Nat)
  | 0, _, _, _ => .fatal
  | fuel + 1, next_page, size, buffer =>
    if buffer.length < size then
      match next_page with
      | some next =>
        match readOv next with
        | none => .err
        | some overflow =>
          ovReadLoop readOv fuel overflow.next size (buffer ++ overflow.payload)
      | none => .ok (next_page, buffer)
    else .ok (next_page, buffer)

/-- `OverflowScanner::read`: walk the chain from `first_page` until `size`
bytes are accumulated or the chain ends. -/
def overflow_scanner_read (readOv : Nat → Option OverflowPage) (fuel : Nat)
    (first_page : Nat) (size : Nat) : ROut (Option Nat × List Nat) :=
  ovReadLoop readOv fuel (some first_page) size []

/-- The decoding `match` at the end of `Cursor::field`.  The `Bool` result
component is ghost instrumentation recording whether the overflow reader
was invoked on this call. -/
def decodeField (self : Cursor) (record_field : RecordField)
    (invoked : Bool) : ROut (Option Value × Cursor × Bool) :=
  match record_field.field_type with
  | .null => .ok (some .null, self, invoked)
  | .i8 => (read_i8_at self.payload record_field.offset).map
      fun v => (some (.int v), self, invoked)
  | .i16 => (read_i16_at self.payload record_field.offset).map
      fun v => (some (.int v), self, invoked)
  | .i24 => (read_i24_at self.payload record_field.offset).map
      fun v => (some (.int v), self, invoked)
  | .i32 => (read_i32_at self.payload record_field.offset).map
      fun v => (some (.int v), self, invoked)
  | .i48 => (read_i48_at self.payload record_field.offset).map
      fun v => (some (.int v), self, invoked)
  | .i64 => (read_i64_at self.payload record_field.offset).map
      fun v => (some (.int v), self, invoked)
  | .float => (read_f64_at self.payload record_field.offset).map
      fun bits => (some (.float bits), self, invoked)
  | .string length =>
    -- `&self.payload[offset..offset + length]` panics when out of bounds
    if record_field.offset + length ≤ self.payload.length then
      let slice := (self.payload.drop record_field.offset).take length
      -- `std::str::from_utf8(..).expect("invalid utf8")`: a panic
      if validUtf8 slice then .ok (some (.string slice), self, invoked)
      else .fatal
    else .fatal
  | .blob length =>
    if record_field.offset + length ≤ self.payload.length then
      let slice := (self.payload.drop record_field.offset).take length
      .ok (some (.blob slice), self, invoked)
    else .fatal
  | .one => .ok (some (.int 1), self, invoked)
  | .zero => .ok (some (.int 0), self, invoked)

/-- `Cursor::field`.  Looks up field `n`; if
`end_offset > self.payload.len() - 1` and an overflow chain remains, invokes
the overflow reader and extends the payload; then decodes the field.
The usize expression `self.payload.len() - 1` is evaluated over `Int`
(debug Rust would panic when the payload is empty; every reachable cursor
has a non-empty payload, where the two agree).
`overflow_size` uses `saturating_sub`, which is `Nat` subtraction. -/
def Cursor.field (readOv : Nat → Option OverflowPage) (fuel : Nat)
    (self : Cursor) (n : Nat) : ROut (Option Value × Cursor × Bool) :=
  match self.header.fields[n]? with
  | none => .ok (none, self, false)
  | some record_field =>
    let end_offset := record_field.end_offset
    match self.next_overflow_page with
    | some overflow_page =>
      if (end_offset : Int) > (self.payload.length : Int) - 1 then
        let overflow_size := end_offset - self.payload.length
        match overflow_scanner_read readOv fuel overflow_page overflow_size with
        | .err => .err
        | .fatal => .fatal
        | .ok (next_overflow, overflow_data) =>
          decodeField
            ⟨self.header, self.payload ++ overflow_data, next_overflow⟩
            record_field true
      else decodeField self record_field false
    | none => decodeField self record_field false

/-! ## The pager cache (`pager.rs`) -/

/-- The discriminated cache entry: a regular B-tree page or an overflow
page. -/
inductive CachedPage where
  | page (p : Page)
  | overflow (o : OverflowPage)
  deriving DecidableEq, Repr

/-- Pager state: the page cache (an association list, newest entry first)
and a ghost log of the page numbers `load_raw` has read from the file. -/
structure PagerState where
  cache : List (Nat × CachedPage)
  readLog : List Nat
  deriving DecidableEq, Repr

def cacheLookup (cache : List (Nat × CachedPage)) (n : Nat) :
    Option CachedPage :=
  match cache with
  | [] => none
  | (k, v) :: rest => if k = n then some v else cacheLookup rest n

/-- `Pager::read_page` = `load` with `parse_page` and the
`TryFrom<CachedPage> for Arc<Page>` conversion (which fails on a cached
overflow entry).  On a cache miss, `load_raw` reads `page_size` bytes
(modelled by `file`, with the read logged) and the first
`usable_page_size` bytes are parsed and inserted. -/
def Pager.read_page (file : Nat → Option (List Nat)) (header : DbHeader)
    (parsePageFn : List Nat → Option Page) (s : PagerState) (n : Nat) :
    ROut Page × PagerState :=
  match cacheLookup s.cache n with
  | some (.page p) => (.ok p, s)
  | some (.overflow _) => (.err, s)
  | none =>
    let s' : PagerState := ⟨s.cache, n :: s.readLog⟩
    match file n with
    | none => (.err, s')
    | some buffer =>
      match parsePageFn (buffer.take header.usable_page_size) with
      | none => (.err, s')
      | some parsed => (.ok parsed, ⟨(n, .page parsed) :: s'.cache, s'.readLog⟩)

/-- `Pager::read_overflow` = `load` with `parse_overflow_page` and the
`TryFrom<CachedPage> for Arc<OverflowPage>` conversion (which fails on a
cached regular-page entry). -/
def Pager.read_overflow (file : Nat → Option (List Nat)) (header : DbHeader)
    (parseOvFn : List Nat → Option OverflowPage) (s : PagerState) (n : Nat) :
    ROut OverflowPage × PagerState :=
  match cacheLookup s.cache n with
  | some (.overflow o) => (.ok o, s)
  | some (.page _) => (.err, s)
  | none =>
    let s' : PagerState := ⟨s.cache, n :: s.readLog⟩
    match file n with
    | none => (.err, s')
    | some buffer =>
      match parseOvFn (buffer.take header.usable_page_size) with
      | none => (.err, s')
      | some parsed =>
        (.ok parsed, ⟨(n, .overflow parsed) :: s'.cache, s'.readLog⟩)

/-! ## Scanner (`cursor.rs`) -/

structure PositionedPage where
  page : Page
  cell : Nat
  deriving DecidableEq, Repr

/-- `PositionedPage::next_cell`: takes the cell at the current index and
increments the index (also on a miss). -/
def PositionedPage.next_cell (self : PositionedPage) :
    Option Cell × PositionedPage :=
  (self.page.get self.cell, ⟨self.page, self.cell + 1⟩)

/-- `PositionedPage::next_page`: on an interior page whose cell index just
passed the last cell, increment the index once more and hand out the
rightmost pointer. -/
def PositionedPage.next_page (self : PositionedPage) :
    Option Nat × PositionedPage :=
  if self.page.header.page_type = .tableInterior ∧
      self.cell = self.page.cells.length then
    (self.page.header.rightmost_pointer, ⟨self.page, self.cell + 1⟩)
  else (none, self)

/-- Scanner state: the initial (root) page number and the stack of
positioned pages; the head of the list is the top of the stack. -/
structure ScanState where
  initial_page : Nat
  page_stack : List PositionedPage
  deriving DecidableEq, Repr

inductive ScannerElem where
  | page (n : Nat)
  | cursor (c : Cursor)
  deriving DecidableEq, Repr

/-- The body of `Scanner::next_elem` once the stack is non-empty:
`next_page`, then `next_cell`, building a cursor from a leaf cell (the
record header must parse) or handing out a child page number from an
interior cell. -/
def processTop (initial : Nat) (top : PositionedPage)
    (rest : List PositionedPage) : ROut (Option ScannerElem × ScanState) :=
  let step := top.next_page
  match step.1 with
  | some pgnum => .ok (some (.page pgnum), ⟨initial, step.2 :: rest⟩)
  | none =>
    let step2 := step.2.next_cell
    match step2.1 with
    | none => .ok (none, ⟨initial, step2.2 :: rest⟩)
    | some (.tableLeaf c) =>
      match parse_record_header c.payload with
      | none => .err
      | some hd =>
        .ok (some (.cursor ⟨hd, c.payload, c.first_overflow⟩),
          ⟨initial, step2.2 :: rest⟩)
    | some (.tableInterior c) =>
      .ok (some (.page c.left_child_page), ⟨initial, step2.2 :: rest⟩)

/-- `Scanner::next_elem`: `current_page` first pushes the initial page when
the stack is empty (an error if the pager cannot read it). -/
def nextElem (store : Nat → Option Page) (s : ScanState) :
    ROut (Option ScannerElem × ScanState) :=
  match s.page_stack with
  | [] =>
    match store s.initial_page with
    | none => .err
    | some pg => processTop s.initial_page ⟨pg, 0⟩ []
  | top :: rest => processTop s.initial_page top rest

/-- `Scanner::next_record`: loop over `next_elem`, pushing pages handed out
by `next_elem` (read through the pager, modelled by `store`), popping an
exhausted page while the stack is deeper than one, and returning the first
cursor or `none`.  `fuel` bounds the loop; the Rust loop terminates on
every acyclic page graph. -/
def nextRecord (store : Nat → Option Page) :
    Nat → ScanState → ROut (Option Cursor × ScanState)
  | 0, _ => .fatal
  | fuel + 1, s =>
    match nextElem store s with
    | .err => .err
    | .fatal => .fatal
    | .ok (some (.cursor c), s1) => .ok (some c, s1)
    | .ok (some (.page p), s1) =>
      match store p with
      | none => .err
      | some new_page =>
        nextRecord store fuel ⟨s1.initial_page, ⟨new_page, 0⟩ :: s1.page_stack⟩
    | .ok (none, s1) =>
      if s1.page_stack.length > 1 then
        nextRecord store fuel ⟨s1.initial_page, s1.page_stack.tail⟩
      else .ok (none, s1)

/-- Repeatedly call `next_record` (inner fuel `F` per call), collecting the
yielded cursors until a call returns `none`; `none` on any error or on fuel
exhaustion. -/
def scanRecords (store : Nat → Option Page) (F : Nat) :
    Nat → ScanState → Option (List Cursor)
  | 0, _ => none
  | calls + 1, s =>
    match nextRecord store F s with
    | .err => none
    | .fatal => none
    | .ok (none, _) => some []
    | .ok (some c, s1) => (scanRecords store F calls s1).map (c :: ·)

/-! ## Specification-side model of a table B-tree -/

mutual
/-- A table B-tree: a leaf holds its cells; an interior node holds its
left children (each with the page number its cell points to), the rightmost
pointer `rn`, and the rightmost subtree. -/
inductive Tree where
  | leaf (cells : List TableLeafCell)
  | interior (children : TreeList) (rn : Nat) (rtree : Tree)

/-- The child list of an interior node. -/
inductive TreeList where
  | nil
  | cons (page : Nat) (t : Tree) (rest : TreeList)
end

mutual
/-- Number of scanner steps (`next_elem` calls) a full traversal of the
tree takes after its root page was pushed. -/
def Tree.size : Tree → Nat
  | .leaf cells => cells.length + 1
  | .interior ch _ rt => ch.weight + (1 + rt.size) + 1

/-- Steps for a suffix of an interior node's children: one push per child
plus the child's own steps. -/
def TreeList.weight : TreeList → Nat
  | .nil => 0
  | .cons _ t rest => (1 + t.size) + rest.weight
end

mutual
/-- The leaf cells of the tree in depth-first order: for each interior
page, all left children in cell order, then the rightmost child. -/
def Tree.leaves : Tree → List TableLeafCell
  | .leaf cells => cells
  | .interior ch _ rt => ch.leavesL ++ rt.leaves

def TreeList.leavesL : TreeList → List TableLeafCell
  | .nil => []
  | .cons _ t rest => t.leaves ++ rest.leavesL
end

def TreeList.lengthL : TreeList → Nat
  | .nil => 0
  | .cons _ _ rest => rest.lengthL + 1

def TreeList.getL : TreeList → Nat → Option (Nat × Tree)
  | .nil, _ => none
  | .cons p t _, 0 => some (p, t)
  | .cons _ _ rest, i + 1 => rest.getL i

def TreeList.dropL : TreeList → Nat → TreeList
  | tl, 0 => tl
  | .nil, _ + 1 => .nil
  | .cons _ _ rest, i + 1 => rest.dropL i

/-- The interior cells stored on the page of an interior node. -/
def TreeList.interiorCells : TreeList → List Cell
  | .nil => []
  | .cons p _ rest => Cell.tableInterior ⟨p⟩ :: rest.interiorCells

/-- The parsed `Page` at the root of a tree, as `parse_page` would produce
it: a leaf page holds the leaf cells (rightmost pointer absent), an
interior page holds one interior cell per left child and the rightmost
pointer in its header. -/
def Tree.rootPage : Tree → Page
  | .leaf cells => ⟨⟨.tableLeaf, cells.length, none⟩, cells.map Cell.tableLeaf⟩
  | .interior ch rn _ => ⟨⟨.tableInterior, ch.lengthL, some rn⟩, ch.interiorCells⟩

mutual
/-- All pages below the root of `t` are present in the store with the
contents the tree prescribes. -/
def Tree.stored (store : Nat → Option Page) : Tree → Prop
  | .leaf _ => True
  | .interior ch rn rt =>
    ch.storedL store ∧ store rn = some rt.rootPage ∧ rt.stored store

def TreeList.storedL (store : Nat → Option Page) : TreeList → Prop
  | .nil => True
  | .cons p t rest =>
    store p = some t.rootPage ∧ t.stored store ∧ rest.storedL store
end

/-- `store` holds a well-formed table B-tree `t` rooted at page `n`. -/
def Represents (store : Nat → Option Page) (n : Nat) (t : Tree) : Prop :=
  store n = some t.rootPage ∧ t.stored store

mutual
/-- Every leaf cell payload in the tree has a parsable record header. -/
def Tree.allParse : Tree → Prop
  | .leaf cells => ∀ c ∈ cells, (parse_record_header c.payload).isSome
  | .interior ch _ rt => ch.allParseL ∧ rt.allParse

def TreeList.allParseL : TreeList → Prop
  | .nil => True
  | .cons _ t rest => t.allParse ∧ rest.allParseL
end

/-- The cursor the scanner builds from a leaf cell (given its record header
parses). -/
def cursorOf (c : TableLeafCell) : Cursor :=
  ⟨(parse_record_header c.payload).getD ⟨[]⟩, c.payload, c.first_overflow⟩

/-- The leaf cells still to be yielded by a stack frame positioned at cell
index `i` of the page of `t`. -/
def frameRem : Tree × Nat → List TableLeafCell
  | (.leaf cells, i) => cells.drop i
  | (.interior ch _ rt, i) =>
    (ch.dropL i).leavesL ++ (if i ≤ ch.lengthL then rt.leaves else [])

/-- The number of `next_elem` calls the frame still causes (its own cells,
pushes and final pop/finish, plus fully traversing the remaining
subtrees). -/
def frameMeasure : Tree × Nat → Nat
  | (.leaf cells, i) => cells.length - i + 1
  | (.interior ch _ rt, i) =>
    (ch.dropL i).weight + (if i ≤ ch.lengthL then 1 + rt.size else 0) + 1

/-- A stack frame faithfully positioned inside the page of `t` at index
`i`, with the subtree stored and parsable. -/
def frameInv (store : Nat → Option Page) (f : PositionedPage) :
    Tree × Nat → Prop
  | (t, i) =>
    f.page = t.rootPage ∧ f.cell = i ∧ t.stored store ∧ t.allParse ∧
    (match t with
     | .leaf cells => i ≤ cells.length
     | .interior ch _ _ => i ≤ ch.lengthL + 1)

/-- The whole stack is decorated by a list of (subtree, position) pairs. -/
def stackInv (store : Nat → Option Page) :
    List PositionedPage → List (Tree × Nat) → Prop
  | [], [] => True
  | f :: fs, d :: ds => frameInv store f d ∧ stackInv store fs ds
  | _, _ => False

def decMeasure (dec : List (Tree × Nat)) : Nat :=
  (dec.map frameMeasure).sum

def decRem (dec : List (Tree × Nat)) : List TableLeafCell :=
  (dec.map frameRem).flatten

/-- A small concrete table B-tree exercising the scanner model: an interior
root (page 1) with one left child (page 2, one record) and a rightmost
child (page 3, one record). -/
def exampleTree : Tree :=
  .interior (.cons 2 (.leaf [⟨[1], none⟩]) .nil) 3 (.leaf [⟨[2, 1], none⟩])

/-- The page store holding `exampleTree`. -/
def exampleStore : Nat → Option Page := fun n =>
  if n = 1 then some exampleTree.rootPage
  else if n = 2 then some ((Tree.leaf [⟨[1], none⟩]).rootPage)
  else if n = 3 then some ((Tree.leaf [⟨[2, 1], none⟩]).rootPage)
  else none

/-! ## Specification-side definitions for the record decoder -/

/-- The specification's size table for record field types (spec §4.5 and
claim C9): 0 for Null/Zero/One, 1/2/3/4/6/8 for the integer widths, 8 for
Float, and the declared length for String/Blob. -/
def recordFieldSize : RecordFieldType → Nat
  | .null => 0
  | .i8 => 1
  | .i16 => 2
  | .i24 => 3
  | .i32 => 4
  | .i48 => 6
  | .i64 => 8
  | .float => 8
  | .zero => 0
  | .one => 0
  | .string n => n
  | .blob n => n

/-- The record-header offset invariant: the first field sits at `off` and
each later field at the previous field's offset plus its size. -/
def offsetsChained : Nat → List RecordField → Prop
  | _, [] => True
  | off, f :: rest =>
    f.offset = off ∧ offsetsChained (off + recordFieldSize f.field_type) rest

/-! ## Supporting lemmas -/

/-- The minimum local payload `M = ((U - 12) * 32 / 255) - 23` never exceeds
the local-storage threshold `X = U - 35`. -/
theorem min_size_le_max_size (U : Nat) (hU : 512 ≤ U) :
    (U - 12) * 32 / 255 - 23 ≤ U - 35 := by
  have h1 : (U - 12) * 32 / 255 ≤ U - 12 := by
    calc (U - 12) * 32 / 255 ≤ (U - 12) * 255 / 255 :=
          Nat.div_le_div_right (Nat.mul_le_mul_left _ (by norm_num))
    _ = U - 12 := Nat.mul_div_cancel _ (by norm_num)
  omega

/-- A successful indexed read pins down the head of the dropped suffix. -/
theorem drop_eq_cons_of_getElem {α : Type _} {l : List α} {i : Nat} {b : α}
    (h : l[i]? = some b) : l.drop i = b :: l.drop (i + 1) := by
  have hi : i < l.length := by
    by_contra hc
    rw [List.getElem?_eq_none (by omega)] at h
    exact Option.noConfusion h
  rw [List.drop_eq_getElem_cons hi]
  congr 1
  rw [List.getElem?_eq_getElem hi] at h
  exact Option.some.inj h

/-- What the varint loop consumes and computes: starting at byte counter
`size` with `rem = 9 - size` iterations left, a successful run consumes
between `0` and `rem` further bytes (at least one if `rem > 0`), stays in
bounds, and accumulates exactly `varintAccum` over the consumed bytes. -/
theorem varintLoop_spec (buffer : List Nat) :
    ∀ rem offset size acc n r,
      varintLoop buffer rem offset size acc = some (n, r) →
      size ≤ n ∧ n ≤ size + rem ∧ (0 < rem → size < n) ∧
      n - size ≤ buffer.length - offset ∧
      r = varintAccum size acc ((buffer.drop offset).take (n - size)) := by
  intro rem
  induction rem with
  | zero =>
    intro offset size acc n r h
    simp only [varintLoop, Option.some.injEq, Prod.mk.injEq] at h
    obtain ⟨rfl, rfl⟩ := h
    simp [varintAccum]
  | succ rem ih =>
    intro offset size acc n r h
    simp only [varintLoop] at h
    cases hbyte : buffer[offset]? with
    | none => rw [hbyte] at h; exact Option.noConfusion h
    | some b =>
      rw [hbyte] at h
      replace h :
          (if (b &&& 0x80 == 0) = true then
            some (size + 1,
              if (size == 8) = true then ((acc <<< 8) ||| b) % 2 ^ 64
              else ((acc <<< 7) ||| (b &&& 0x7F)) % 2 ^ 64)
          else varintLoop buffer rem (offset + 1) (size + 1)
              (if (size == 8) = true then ((acc <<< 8) ||| b) % 2 ^ 64
               else ((acc <<< 7) ||| (b &&& 0x7F)) % 2 ^ 64)) = some (n, r) := h
      have hoff : offset < buffer.length := by
        by_contra hc
        rw [List.getElem?_eq_none (by omega)] at hbyte
        exact Option.noConfusion hbyte
      have hdrop : buffer.drop offset = b :: buffer.drop (offset + 1) :=
        drop_eq_cons_of_getElem hbyte
      by_cases hcont : (b &&& 0x80 == 0) = true
      · rw [if_pos hcont] at h
        simp only [Option.some.injEq, Prod.mk.injEq] at h
        obtain ⟨rfl, rfl⟩ := h
        refine ⟨by omega, by omega, fun _ => by omega, by omega, ?_⟩
        have : size + 1 - size = 1 := by omega
        rw [this, hdrop]
        simp [varintAccum]
      · rw [if_neg hcont] at h
        obtain ⟨h1, h2, _h3, h4, h5⟩ :=
          ih (offset + 1) (size + 1)
            (if (size == 8) = true then ((acc <<< 8) ||| b) % 2 ^ 64
             else ((acc <<< 7) ||| (b &&& 0x7F)) % 2 ^ 64) n r h
        refine ⟨by omega, by omega, fun _ => by omega, by omega, ?_⟩
        rw [h5, hdrop]
        have hns : n - size = (n - (size + 1)) + 1 := by omega
        rw [hns]
        simp only [List.take_succ_cons, varintAccum]

/-- `varintAccum` splits over list append. -/
theorem varintAccum_append (l l' : List Nat) :
    ∀ size acc, varintAccum size acc (l ++ l') =
      varintAccum (size + l.length) (varintAccum size acc l) l' := by
  induction l with
  | nil => intro size acc; simp [varintAccum]
  | cons b bs ih =>
    intro size acc
    simp only [List.cons_append, varintAccum, List.length_cons, List.append_eq]
    rw [ih]
    have harith : size + 1 + bs.length = size + (bs.length + 1) := by omega
    rw [harith]

/-- Masking with `0x7F` is reduction mod 128. -/
theorem and_127_eq_mod (b : Nat) : b &&& 127 = b % 128 := by
  have h := Nat.and_pow_two_sub_one_eq_mod b 7
  norm_num at h
  exact h

/-- The 7-bit accumulation step, written with shift/or/mask, is plain
arithmetic. -/
theorem shift7_or_eq (acc b : Nat) :
    (acc <<< 7) ||| (b &&& 127) = acc * 128 + b % 128 := by
  rw [and_127_eq_mod, Nat.shiftLeft_eq]
  have h := Nat.mul_add_lt_is_or (i := 7) (b := b % 128)
    (Nat.mod_lt _ (by norm_num)) acc
  calc acc * 2 ^ 7 ||| b % 128 = 2 ^ 7 * acc ||| b % 128 := by
        rw [Nat.mul_comm]
    _ = 2 ^ 7 * acc + b % 128 := h.symm
    _ = acc * 128 + b % 128 := by ring

/-- The 8-bit accumulation step for the ninth byte. -/
theorem shift8_or_eq (acc b : Nat) (hb : b < 256) :
    (acc <<< 8) ||| b = acc * 256 + b := by
  rw [Nat.shiftLeft_eq]
  have h := Nat.mul_add_lt_is_or (i := 8) (b := b) (by norm_num [hb]) acc
  calc acc * 2 ^ 8 ||| b = 2 ^ 8 * acc ||| b := by rw [Nat.mul_comm]
    _ = 2 ^ 8 * acc + b := h.symm
    _ = acc * 256 + b := by ring

/-- Size bound for the 7-bit fold. -/
theorem fold7_lt (l : List Nat) :
    ∀ acc m, acc < 2 ^ m →
      l.foldl (fun a b => a * 128 + b % 128) acc < 2 ^ (m + 7 * l.length) := by
  induction l with
  | nil => intro acc m h; simpa using h
  | cons b bs ih =>
    intro acc m h
    simp only [List.foldl_cons, List.length_cons]
    have hstep : acc * 128 + b % 128 < 2 ^ (m + 7) := by
      have hb : b % 128 < 128 := Nat.mod_lt _ (by norm_num)
      calc acc * 128 + b % 128 < (acc + 1) * 128 := by omega
        _ ≤ 2 ^ m * 128 := Nat.mul_le_mul_right _ (by omega)
        _ = 2 ^ (m + 7) := by rw [pow_add]; norm_num
    have := ih _ _ hstep
    have harith : m + 7 + 7 * bs.length = m + 7 * (bs.length + 1) := by ring
    rwa [harith] at this

/-- Below the ninth byte, the loop accumulation (with its wrap-around) is the
plain 7-bit big-endian fold: no wrap occurs. -/
theorem varintAccum_no9 (bytes : List Nat) :
    ∀ size acc, size + bytes.length ≤ 8 → acc < 2 ^ (7 * size) →
      varintAccum size acc bytes =
        bytes.foldl (fun a b => a * 128 + b % 128) acc := by
  induction bytes with
  | nil => intro size acc _ _; simp [varintAccum]
  | cons b bs ih =>
    intro size acc hlen hacc
    have hsize : size < 8 := by simp at hlen; omega
    have hne : (size == 8) = false := by simp; omega
    simp only [varintAccum, hne, Bool.false_eq_true, if_false, List.foldl_cons]
    have hstep : (acc <<< 7) ||| (b &&& 0x7F) = acc * 128 + b % 128 :=
      shift7_or_eq acc b
    have hlt : acc * 128 + b % 128 < 2 ^ (7 * (size + 1)) := by
      have hb : b % 128 < 128 := Nat.mod_lt _ (by norm_num)
      calc acc * 128 + b % 128 < (acc + 1) * 128 := by omega
        _ ≤ 2 ^ (7 * size) * 128 := Nat.mul_le_mul_right _ (by omega)
        _ = 2 ^ (7 * size + 7) := by rw [pow_add]; norm_num
        _ = 2 ^ (7 * (size + 1)) := by ring_nf
    have hlt64 : acc * 128 + b % 128 < 2 ^ 64 := by
      calc acc * 128 + b % 128 < 2 ^ (7 * (size + 1)) := hlt
        _ ≤ 2 ^ 64 := Nat.pow_le_pow_right (by norm_num) (by omega)
    rw [hstep, Nat.mod_eq_of_lt hlt64]
    exact ih (size + 1) _ (by simp at hlen ⊢; omega) hlt

/-- The loop accumulation starting from scratch computes the
specification-side varint value, for byte lists of at most nine `u8`
values. -/
theorem varintAccum_eq_specValue (bytes : List Nat)
    (hb : ∀ b ∈ bytes, b < 256) (hlen : bytes.length ≤ 9) :
    varintAccum 0 0 bytes = varintSpecValue bytes := by
  unfold varintSpecValue
  by_cases h9 : bytes.length = 9
  · rw [if_pos h9]
    have hsplit : bytes = bytes.take 8 ++ bytes.drop 8 :=
      (List.take_append_drop 8 bytes).symm
    have hlen8 : (bytes.take 8).length = 8 := by
      rw [List.length_take]; omega
    obtain ⟨b9, hb9⟩ : ∃ b9, bytes.drop 8 = [b9] := by
      have : (bytes.drop 8).length = 1 := by
        rw [List.length_drop]; omega
      cases hd : bytes.drop 8 with
      | nil => rw [hd] at this; simp at this
      | cons x xs =>
        rw [hd] at this
        simp at this
        exact ⟨x, by rw [this]⟩
    have hfront : varintAccum 0 0 (bytes.take 8) =
        (bytes.take 8).foldl (fun a b => a * 128 + b % 128) 0 :=
      varintAccum_no9 _ 0 0 (by omega) (by norm_num)
    have hF : (bytes.take 8).foldl (fun a b => a * 128 + b % 128) 0 <
        2 ^ 56 := by
      have := fold7_lt (bytes.take 8) 0 0 (by norm_num)
      rwa [hlen8] at this
    have hb9lt : b9 < 256 := by
      apply hb
      rw [hsplit, hb9]
      simp
    conv_lhs => rw [hsplit]
    rw [varintAccum_append, hlen8, hfront]
    have h8 : ((0 : Nat) + 8) = 8 := by norm_num
    rw [hb9, h8]
    simp only [varintAccum]
    have hlast : bytes[8]? = some b9 := by
      conv_lhs => rw [hsplit]
      rw [List.getElem?_append_right (by omega), hlen8]
      simp [hb9]
    rw [hlast]
    have hFb : ((bytes.take 8).foldl (fun a b => a * 128 + b % 128) 0 <<< 8)
        ||| b9 = (bytes.take 8).foldl (fun a b => a * 128 + b % 128) 0 * 256
          + b9 := shift8_or_eq _ _ hb9lt
    simp only [beq_self_eq_true, if_true, hFb]
    rw [Nat.mod_eq_of_lt]
    · simp
    · calc (bytes.take 8).foldl (fun a b => a * 128 + b % 128) 0 * 256 + b9 <
            ((bytes.take 8).foldl (fun a b => a * 128 + b % 128) 0 + 1) * 256 := by
            omega
        _ ≤ 2 ^ 56 * 256 := Nat.mul_le_mul_right _ (by omega)
        _ = 2 ^ 64 := by norm_num
  · rw [if_neg h9]
    exact varintAccum_no9 bytes 0 0 (by omega) (by norm_num)

/-! ## Claim C1: the overflow-threshold formula -/

/-- **C1.** For every table-leaf page and every total payload size `P`, with
`U = usable_page_size`, `M = ((U - 12) * 32 / 255) - 23` and `X = U - 35`,
`local_and_overflow_size` returns `(local, overflow)` such that
`local + (overflow or 0) = P`, `local ≤ X`, and whenever `P ≤ X` it returns
`overflow = None` and `local = P`; when `P > X` it returns
`local = K = M + ((P - M) mod (U - 4))` if `K ≤ X` and `local = M`
otherwise.  (Stated for the usable page sizes the format admits,
`U ≥ 512`.) -/
theorem C1_local_and_overflow_size_correct
    (db : DbHeader) (ph : PageHeader) (P : Nat)
    (hleaf : ph.page_type = .tableLeaf)
    (hU : 512 ≤ db.usable_page_size) :
    ∃ loc ov, ph.local_and_overflow_size db P = some (loc, ov) ∧
      loc + ov.getD 0 = P ∧
      loc ≤ db.usable_page_size - 35 ∧
      (P ≤ db.usable_page_size - 35 → ov = none ∧ loc = P) ∧
      (db.usable_page_size - 35 < P →
        loc = if (db.usable_page_size - 12) * 32 / 255 - 23 +
                (P - ((db.usable_page_size - 12) * 32 / 255 - 23)) %
                  (db.usable_page_size - 4) ≤ db.usable_page_size - 35
              then (db.usable_page_size - 12) * 32 / 255 - 23 +
                (P - ((db.usable_page_size - 12) * 32 / 255 - 23)) %
                  (db.usable_page_size - 4)
              else (db.usable_page_size - 12) * 32 / 255 - 23) := by
  have hM := min_size_le_max_size db.usable_page_size hU
  have hunf : ph.local_payload_size db P =
      if P ≤ db.usable_page_size - 35 then some P
      else some (if (db.usable_page_size - 12) * 32 / 255 - 23 +
            (P - ((db.usable_page_size - 12) * 32 / 255 - 23)) %
              (db.usable_page_size - 4) ≤ db.usable_page_size - 35
          then (db.usable_page_size - 12) * 32 / 255 - 23 +
            (P - ((db.usable_page_size - 12) * 32 / 255 - 23)) %
              (db.usable_page_size - 4)
          else (db.usable_page_size - 12) * 32 / 255 - 23) := by
    unfold PageHeader.local_payload_size
    rw [hleaf]
  unfold PageHeader.local_and_overflow_size
  rw [hunf]
  by_cases hP : P ≤ db.usable_page_size - 35
  · rw [if_pos hP]
    refine ⟨P, none, by simp, by simp, hP, fun _ => ⟨rfl, rfl⟩,
      fun h => absurd hP (by omega)⟩
  · rw [if_neg hP]
    set U := db.usable_page_size with hUdef
    set M := (U - 12) * 32 / 255 - 23 with hMdef
    set K := M + (P - M) % (U - 4) with hKdef
    set loc := if K ≤ U - 35 then K else M with hlocdef
    have hlocle : loc ≤ U - 35 := by
      rw [hlocdef]; split
      · assumption
      · exact hM
    have hlocP : loc < P := by omega
    refine ⟨loc, some (P - loc), ?_, by simp; omega, hlocle,
      fun h => absurd h hP, fun _ => rfl⟩
    simp [Nat.ne_of_lt hlocP]

/-- Witness for `C1_local_and_overflow_size_correct` at `U = 512`,
`P = 1000`. -/
theorem C1_local_and_overflow_size_correct_witness :
    (PageHeader.mk .tableLeaf 0 none).page_type = .tableLeaf ∧
    512 ≤ (DbHeader.mk 512 0).usable_page_size ∧
    ∃ loc ov,
      (PageHeader.mk .tableLeaf 0 none).local_and_overflow_size
          (DbHeader.mk 512 0) 1000 = some (loc, ov) ∧
      loc + ov.getD 0 = 1000 ∧
      loc ≤ (DbHeader.mk 512 0).usable_page_size - 35 ∧
      ((1000 : Nat) ≤ (DbHeader.mk 512 0).usable_page_size - 35 →
        ov = none ∧ loc = 1000) ∧
      ((DbHeader.mk 512 0).usable_page_size - 35 < 1000 →
        loc = if ((DbHeader.mk 512 0).usable_page_size - 12) * 32 / 255 - 23 +
                (1000 - (((DbHeader.mk 512 0).usable_page_size - 12) * 32 / 255 - 23)) %
                  ((DbHeader.mk 512 0).usable_page_size - 4) ≤
                  (DbHeader.mk 512 0).usable_page_size - 35
              then ((DbHeader.mk 512 0).usable_page_size - 12) * 32 / 255 - 23 +
                (1000 - (((DbHeader.mk 512 0).usable_page_size - 12) * 32 / 255 - 23)) %
                  ((DbHeader.mk 512 0).usable_page_size - 4)
              else ((DbHeader.mk 512 0).usable_page_size - 12) * 32 / 255 - 23) :=
  ⟨rfl, by decide,
    C1_local_and_overflow_size_correct (DbHeader.mk 512 0)
      (PageHeader.mk .tableLeaf 0 none) 1000 rfl (by decide)⟩

/-! ## Claim C2: the varint decoder -/

/-- **C2.** The varint decoder `read_varint_at`, applied at offset 0, returns
`(1, 1)` on `[0x01]`, `(2, 255)` on `[0x81, 0x7F]`, `(9, -1)` on nine `0xFF`
bytes, and `(9, 0x01FC00000000006D)` on
`[0x80, 0xFF, 0x80, 0x80, 0x80, 0x80, 0x80, 0x80, 0x6D]`; in general it
consumes between 1 and 9 bytes, accumulating the low 7 bits of each of the
first eight bytes (MSB as continuation flag) and all 8 bits of a ninth byte,
reinterpreted as signed two's-complement `i64`. -/
theorem C2_read_varint_at_correct :
    read_varint_at [0x01] 0 = some (1, 1) ∧
    read_varint_at [0x81, 0x7F] 0 = some (2, 255) ∧
    read_varint_at [0xFF, 0xFF, 0xFF, 0xFF, 0xFF, 0xFF, 0xFF, 0xFF, 0xFF] 0 =
      some (9, -1) ∧
    read_varint_at [0x80, 0xFF, 0x80, 0x80, 0x80, 0x80, 0x80, 0x80, 0x6D] 0 =
      some (9, 0x01FC00000000006D) ∧
    ∀ buffer n v, (∀ b ∈ buffer, b < 256) →
      read_varint_at buffer 0 = some (n, v) →
      1 ≤ n ∧ n ≤ 9 ∧ v = i64OfBits (varintSpecValue (buffer.take n)) := by
  refine ⟨by decide, by decide, by decide, by decide, ?_⟩
  intro buffer n v hb h
  unfold read_varint_at at h
  cases hl : varintLoop buffer 9 0 0 0 with
  | none => rw [hl] at h; exact Option.noConfusion h
  | some p =>
    rw [hl] at h
    simp only [Option.map_some', Option.some.injEq, Prod.mk.injEq] at h
    obtain ⟨hn, hv⟩ := h
    obtain ⟨_h1, h2, h3, h4, h5⟩ :=
      varintLoop_spec buffer 9 0 0 0 p.1 p.2 (by rw [hl])
    subst hn
    refine ⟨h3 (by norm_num), by omega, ?_⟩
    rw [← hv, h5]
    simp only [List.drop_zero, Nat.sub_zero]
    congr 1
    apply varintAccum_eq_specValue
    · intro b hbmem
      exact hb b (List.take_subset _ _ hbmem)
    · rw [List.length_take]
      omega

/-- Witness for the general clause of `C2_read_varint_at_correct` at the
concrete input `[0x81, 0x7F]`. -/
theorem C2_read_varint_at_correct_witness :
    (∀ b ∈ ([0x81, 0x7F] : List Nat), b < 256) ∧
    read_varint_at [0x81, 0x7F] 0 = some (2, 255) ∧
    (1 ≤ 2 ∧ 2 ≤ 9 ∧
      (255 : Int) = i64OfBits (varintSpecValue (([0x81, 0x7F] : List Nat).take 2))) :=
  ⟨by decide, C2_read_varint_at_correct.2.1,
    C2_read_varint_at_correct.2.2.2.2 [0x81, 0x7F] 2 255 (by decide)
      C2_read_varint_at_correct.2.1⟩

/-! ## Claim C8: database header parsing -/

/-- **C8, counterexample.**  The claim says a raw page-size word that is a
power of two below 512 (such as 256) is rejected with a format error; the
code accepts it.  On a 100-byte buffer with the correct magic and raw page
size 256 (`0x01 0x00` at offsets 16-17), `parse_header` succeeds and yields
`page_size = 256`. -/
theorem C8_parse_header_range_counterexample :
    (headerPrefix ++ [1, 0, 0, 0, 0] ++ List.replicate 79 0).length = 100 ∧
    read_be_word_at (headerPrefix ++ [1, 0, 0, 0, 0] ++ List.replicate 79 0)
      16 = some 256 ∧
    (256 < 512 ∧ isPowerOfTwoU16 256 = true) ∧
    parse_header (headerPrefix ++ [1, 0, 0, 0, 0] ++ List.replicate 79 0) =
      some ⟨256, 0⟩ := by
  refine ⟨by decide, by decide, by decide, by decide⟩

/-- **C8, amended.**  `parse_header` succeeds exactly when the buffer begins
with `"SQLite format 3\0"` and the big-endian `u16` at offset 16 is either
the sentinel 1 (yielding `page_size` 65536) or any `u16` power of two
(yielding that value as `page_size`); there is no 512..=32768 range
restriction.  Other raw values (zero or not a power of two) are rejected
with a format error. -/
theorem C8_parse_header_amended (buffer : List Nat)
    (hlen : buffer.length = 100) (b16 b17 r : Nat)
    (h16 : buffer[16]? = some b16) (h17 : buffer[17]? = some b17)
    (hr : r = b16 * 256 + b17) (h : DbHeader) :
    parse_header buffer = some h ↔
      (headerPrefix.isPrefixOf buffer = true ∧
        (r = 1 ∨ isPowerOfTwoU16 r = true) ∧
        h = ⟨if r = 1 then 65536 else r, buffer[20]?.getD 0⟩) := by
  have hword : read_be_word_at buffer 16 = some r := by
    unfold read_be_word_at
    rw [h16]
    simp only [Option.bind_eq_bind, Option.some_bind]
    rw [h17]
    simp [hr]
  obtain ⟨b20, h20⟩ : ∃ b, buffer[20]? = some b := by
    have h20lt : 20 < buffer.length := by omega
    exact ⟨buffer[20], List.getElem?_eq_getElem h20lt⟩
  by_cases hpre : headerPrefix.isPrefixOf buffer = true
  · unfold parse_header
    rw [if_pos hpre, hword]
    by_cases h1 : r = 1
    · simp [h1, h20, hpre]
      constructor
      · intro hh; exact hh.symm
      · intro hh; exact hh.symm
    · by_cases hpow : isPowerOfTwoU16 r = true
      · simp [h1, hpow, h20, hpre]
        constructor
        · intro hh; exact hh.symm
        · intro hh; exact hh.symm
      · simp [h1, hpow, hpre]
  · unfold parse_header
    rw [if_neg hpre]
    simp [hpre]

/-- Witness for `C8_parse_header_amended` on a buffer with raw page size
512 and reserved byte 5. -/
theorem C8_parse_header_amended_witness :
    (headerPrefix ++ [2, 0, 0, 0, 5] ++ List.replicate 79 0).length = 100 ∧
    (headerPrefix ++ [2, 0, 0, 0, 5] ++ List.replicate 79 0)[16]? = some 2 ∧
    (headerPrefix ++ [2, 0, 0, 0, 5] ++ List.replicate 79 0)[17]? = some 0 ∧
    (512 : Nat) = 2 * 256 + 0 ∧
    (parse_header (headerPrefix ++ [2, 0, 0, 0, 5] ++ List.replicate 79 0) =
        some ⟨512, 5⟩ ↔
      (headerPrefix.isPrefixOf
          (headerPrefix ++ [2, 0, 0, 0, 5] ++ List.replicate 79 0) = true ∧
        ((512 : Nat) = 1 ∨ isPowerOfTwoU16 512 = true) ∧
        (⟨512, 5⟩ : DbHeader) = ⟨if (512 : Nat) = 1 then 65536 else 512,
          (headerPrefix ++ [2, 0, 0, 0, 5] ++
            List.replicate 79 0)[20]?.getD 0⟩)) :=
  ⟨by decide, by decide, by decide, by decide,
    C8_parse_header_amended _ (by decide) 2 0 512 (by decide) (by decide)
      (by decide) ⟨512, 5⟩⟩

/-! ## Claim C4: `end_offset` for 48-bit integers -/

/-- **C4, code bug.**  The claim (and the spec's size table) fixes 6 as the
size of a 48-bit integer, and `parse_record_header` in the same source file
does advance offsets by 6 for serial type 5, but `RecordField::end_offset`
uses size 5: on the field `{offset := 3, I48}` it returns 8, not `3 + 6`.
The record header parsed from `[3, 5, 1]` places the next field at offset 9,
exposing the internal inconsistency. -/
theorem C4_end_offset_i48_bug :
    (RecordField.mk 3 .i48).end_offset = 8 ∧ (8 : Nat) ≠ 3 + 6 ∧
    parse_record_header [3, 5, 1] = some ⟨[⟨3, .i48⟩, ⟨9, .i8⟩]⟩ := by
  refine ⟨by decide, by decide, by decide⟩

/-! ## Claim C5: the overflow trigger predicate -/

/-- **C5, code bug.**  The claim says `Cursor::field` invokes the overflow
reader exactly when `end_offset > payload_len`.  The source compares
`end_offset > payload_len - 1`, so at the boundary `end_offset = payload_len`
with an overflow chain present it *does* invoke the reader (the ghost `Bool`
in the model's result records the invocation): on a cursor with a one-byte
payload, a single `String(1)` field with `end_offset = 1`, and
`next_overflow_page = some 7`, the call returns with the invocation flag set
even though `end_offset = payload_len = 1`.  (The invoked read has size 0
and returns no bytes, so payload and chain head happen to stay
unchanged.) -/
theorem C5_overflow_trigger_bug :
    (RecordField.mk 0 (.string 1)).end_offset = 1 ∧
    ([0x41] : List Nat).length = 1 ∧
    Cursor.field (fun n => if n = 7 then some ⟨none, [0x42]⟩ else none) 1
        ⟨⟨[⟨0, .string 1⟩]⟩, [0x41], some 7⟩ 0 =
      .ok (some (.string [0x41]), ⟨⟨[⟨0, .string 1⟩]⟩, [0x41], some 7⟩,
        true) := by
  refine ⟨by decide, by decide, by decide⟩

/-! ## Claim C6: fixed-width integer readers -/

/-- **C6, code bug.**  The claim (and the spec) require all six fixed-width
readers to sign-extend from their native width.  In the source,
`read_i8_at` zero-extends (`0xFF` decodes to 255, not -1), and
`read_i24_at` / `read_i48_at` pass a 3-byte (resp. 6-byte) slice to the
`try_into` conversion for the 4-byte (resp. 8-byte) array that
`i32::from_be_bytes` / `i64::from_be_bytes` require, so their `unwrap`
panics on every input.  Only the 16-, 32- and 64-bit readers meet the
claim. -/
theorem C6_fixed_width_readers_bug :
    read_i8_at [0xFF] 0 = .ok 255 ∧ read_i8_at [0xFF] 0 ≠ .ok (-1) ∧
    read_i24_at [0xFF, 0xFF, 0xFF] 0 = .fatal ∧
    read_i48_at [0xFF, 0xFF, 0xFF, 0xFF, 0xFF, 0xFF] 0 = .fatal ∧
    read_i16_at [0xFF, 0xFF] 0 = .ok (-1) ∧
    read_i32_at [0xFF, 0xFF, 0xFF, 0xFF] 0 = .ok (-1) ∧
    read_i64_at [0xFF, 0xFF, 0xFF, 0xFF, 0xFF, 0xFF, 0xFF, 0xFF] 0 =
      .ok (-1) := by
  refine ⟨by decide, by decide, by decide, by decide, by decide, by decide,
    by decide⟩

/-! ## Claim C7: invalid UTF-8 in a string field -/

/-- **C7, code bug.**  The claim (and the spec's error taxonomy) require a
string field holding invalid UTF-8 to produce a recoverable decode error.
The source calls `std::str::from_utf8(..).expect("invalid utf8")`, which
panics: on a cursor whose single `String(1)` field contains the byte
`0xFF`, `Cursor::field` ends in a panic (`fatal`), not an error value
(`err`). -/
theorem C7_invalid_utf8_panic_bug :
    validUtf8 [0xFF] = false ∧
    Cursor.field (fun _ => none) 1 ⟨⟨[⟨0, .string 1⟩]⟩, [0xFF], none⟩ 0 =
      .fatal ∧
    (ROut.fatal : ROut (Option Value × Cursor × Bool)) ≠ .err := by
  refine ⟨by decide, by decide, by decide⟩

/-! ## Claim C9: record-header offset invariant -/

/-- The discriminant table pairs each field type with exactly the
specification's size for it. -/
theorem fieldTypeAndSize_size {d : Int} {ft : RecordFieldType} {sz : Nat}
    (h : fieldTypeAndSize d = some (ft, sz)) : sz = recordFieldSize ft := by
  unfold fieldTypeAndSize at h
  by_cases h0 : d = 0
  · rw [if_pos h0] at h
    injection h with h''
    injection h'' with h1 h2
    subst h1; subst h2; rfl
  rw [if_neg h0] at h
  by_cases h1 : d = 1
  · rw [if_pos h1] at h
    injection h with h''
    injection h'' with ha hb
    subst ha; subst hb; rfl
  rw [if_neg h1] at h
  by_cases h2 : d = 2
  · rw [if_pos h2] at h
    injection h with h''
    injection h'' with ha hb
    subst ha; subst hb; rfl
  rw [if_neg h2] at h
  by_cases h3 : d = 3
  · rw [if_pos h3] at h
    injection h with h''
    injection h'' with ha hb
    subst ha; subst hb; rfl
  rw [if_neg h3] at h
  by_cases h4 : d = 4
  · rw [if_pos h4] at h
    injection h with h''
    injection h'' with ha hb
    subst ha; subst hb; rfl
  rw [if_neg h4] at h
  by_cases h5 : d = 5
  · rw [if_pos h5] at h
    injection h with h''
    injection h'' with ha hb
    subst ha; subst hb; rfl
  rw [if_neg h5] at h
  by_cases h6 : d = 6
  · rw [if_pos h6] at h
    injection h with h''
    injection h'' with ha hb
    subst ha; subst hb; rfl
  rw [if_neg h6] at h
  by_cases h7 : d = 7
  · rw [if_pos h7] at h
    injection h with h''
    injection h'' with ha hb
    subst ha; subst hb; rfl
  rw [if_neg h7] at h
  by_cases h8 : d = 8
  · rw [if_pos h8] at h
    injection h with h''
    injection h'' with ha hb
    subst ha; subst hb; rfl
  rw [if_neg h8] at h
  by_cases h9 : d = 9
  · rw [if_pos h9] at h
    injection h with h''
    injection h'' with ha hb
    subst ha; subst hb; rfl
  rw [if_neg h9] at h
  by_cases h10 : 12 ≤ d ∧ d % 2 = 0
  · rw [if_pos h10] at h
    injection h with h''
    injection h'' with ha hb
    subst ha; subst hb; rfl
  rw [if_neg h10] at h
  by_cases h11 : 13 ≤ d ∧ d % 2 = 1
  · rw [if_pos h11] at h
    injection h with h''
    injection h'' with ha hb
    subst ha; subst hb; rfl
  rw [if_neg h11] at h
  exact Option.noConfusion h

/-- Every successful run of the record-header field loop starting at offset
`off` produces a chained field list. -/
theorem parseFieldsLoop_chained :
    ∀ fuel buffer off fields,
      parseFieldsLoop fuel buffer off = some fields →
      offsetsChained off fields := by
  intro fuel
  induction fuel with
  | zero =>
    intro buffer off fields h
    cases buffer with
    | nil =>
      simp only [parseFieldsLoop, Option.some.injEq] at h
      subst h
      trivial
    | cons b bs => exact Option.noConfusion h
  | succ fuel ih =>
    intro buffer off fields h
    cases buffer with
    | nil =>
      simp only [parseFieldsLoop, Option.some.injEq] at h
      subst h
      trivial
    | cons b bs =>
      simp only [parseFieldsLoop] at h
      cases hv : read_varint_at (b :: bs) 0 with
      | none => rw [hv] at h; exact Option.noConfusion h
      | some p =>
        rw [hv] at h
        obtain ⟨dsize, disc⟩ := p
        replace h :
            (match fieldTypeAndSize disc with
             | none => none
             | some (field_type, field_size) =>
               match parseFieldsLoop fuel ((b :: bs).drop dsize)
                   (off + field_size) with
               | none => none
               | some fields =>
                 some (⟨off, field_type⟩ :: fields)) = some fields := h
        cases hft : fieldTypeAndSize disc with
        | none => rw [hft] at h; exact Option.noConfusion h
        | some q =>
          rw [hft] at h
          obtain ⟨field_type, field_size⟩ := q
          replace h :
              (match parseFieldsLoop fuel ((b :: bs).drop dsize)
                  (off + field_size) with
               | none => none
               | some fields =>
                 some (⟨off, field_type⟩ :: fields)) = some fields := h
          cases hrec : parseFieldsLoop fuel ((b :: bs).drop dsize)
              (off + field_size) with
          | none =>
            rw [hrec] at h
            exact Option.noConfusion h
          | some fields' =>
            rw [hrec] at h
            simp only [Option.some.injEq] at h
            subst h
            refine ⟨rfl, ?_⟩
            have hsz : field_size = recordFieldSize field_type :=
              fieldTypeAndSize_size hft
            rw [← hsz]
            exact ih _ _ _ hrec

/-- A chained field list satisfies the indexed offset equations. -/
theorem offsetsChained_get :
    ∀ (l : List RecordField) (off : Nat), offsetsChained off l →
      (∀ f0, l.head? = some f0 → f0.offset = off) ∧
      ∀ (i : Nat) (hi1 : i + 1 < l.length) (hi : i < l.length),
        (l.get ⟨i + 1, hi1⟩).offset =
          (l.get ⟨i, hi⟩).offset +
            recordFieldSize (l.get ⟨i, hi⟩).field_type := by
  intro l
  induction l with
  | nil =>
    intro off _
    exact ⟨by simp, fun i hi1 => by simp at hi1⟩
  | cons f rest ih =>
    intro off h
    obtain ⟨hf, hrest⟩ := h
    refine ⟨?_, ?_⟩
    · intro f0 hf0
      simp only [List.head?_cons, Option.some.injEq] at hf0
      rw [← hf0, hf]
    · intro i hi1 hi
      cases i with
      | zero =>
        cases rest with
        | nil => simp at hi1
        | cons g t =>
          obtain ⟨hg, _⟩ := hrest
          simp only [List.get]
          rw [hg, hf]
      | succ j =>
        have hlen : j + 1 < rest.length := by
          simp only [List.length_cons] at hi1
          omega
        have hlen0 : j < rest.length := by omega
        have := (ih (off + recordFieldSize f.field_type) hrest).2 j hlen hlen0
        simpa using this

/-- **C9.** For every record header successfully produced by
`parse_record_header`, the first field's offset equals the decoded
header-length varint value, and each subsequent field's offset is the
previous field's offset plus the size of its type (0 for Null/Zero/One,
1/2/3/4/6/8 for the integer widths, 8 for Float, the declared length for
String/Blob). -/
theorem C9_record_header_offsets (buffer : List Nat) (h : RecordHeader)
    (n : Nat) (L : Int)
    (hp : parse_record_header buffer = some h)
    (hv : read_varint_at buffer 0 = some (n, L)) :
    (∀ f0, h.fields.head? = some f0 → f0.offset = L.toNat) ∧
    ∀ (i : Nat) (hi1 : i + 1 < h.fields.length) (hi : i < h.fields.length),
      (h.fields.get ⟨i + 1, hi1⟩).offset =
        (h.fields.get ⟨i, hi⟩).offset +
          recordFieldSize (h.fields.get ⟨i, hi⟩).field_type := by
  unfold parse_record_header at hp
  rw [hv] at hp
  replace hp :
      (if (n : Int) ≤ L ∧ L.toNat ≤ buffer.length then
        match parseFieldsLoop ((buffer.take L.toNat).drop n).length
            ((buffer.take L.toNat).drop n) L.toNat with
        | none => none
        | some fields => some (⟨fields⟩ : RecordHeader)
      else none) = some h := hp
  by_cases hcond : (n : Int) ≤ L ∧ L.toNat ≤ buffer.length
  · rw [if_pos hcond] at hp
    cases hloop : parseFieldsLoop ((buffer.take L.toNat).drop n).length
        ((buffer.take L.toNat).drop n) L.toNat with
    | none => rw [hloop] at hp; exact Option.noConfusion hp
    | some fields =>
      rw [hloop] at hp
      simp only [Option.some.injEq] at hp
      have hchain := parseFieldsLoop_chained _ _ _ _ hloop
      rw [← hp]
      exact offsetsChained_get fields L.toNat hchain
  · rw [if_neg hcond] at hp
    exact Option.noConfusion hp

/-- Witness for `C9_record_header_offsets` on the record header
`[3, 5, 1]` (header length 3, one 48-bit field, one 8-bit field). -/
theorem C9_record_header_offsets_witness :
    parse_record_header [3, 5, 1] = some ⟨[⟨3, .i48⟩, ⟨9, .i8⟩]⟩ ∧
    read_varint_at [3, 5, 1] 0 = some (1, 3) ∧
    ((∀ f0, (RecordHeader.mk [⟨3, .i48⟩, ⟨9, .i8⟩]).fields.head? = some f0 →
        f0.offset = (3 : Int).toNat) ∧
      ∀ (i : Nat)
        (hi1 : i + 1 < (RecordHeader.mk [⟨3, .i48⟩, ⟨9, .i8⟩]).fields.length)
        (hi : i < (RecordHeader.mk [⟨3, .i48⟩, ⟨9, .i8⟩]).fields.length),
        ((RecordHeader.mk [⟨3, .i48⟩, ⟨9, .i8⟩]).fields.get ⟨i + 1, hi1⟩).offset =
          ((RecordHeader.mk [⟨3, .i48⟩, ⟨9, .i8⟩]).fields.get ⟨i, hi⟩).offset +
            recordFieldSize
              ((RecordHeader.mk [⟨3, .i48⟩, ⟨9, .i8⟩]).fields.get
                ⟨i, hi⟩).field_type) :=
  ⟨by decide, by decide,
    C9_record_header_offsets [3, 5, 1] ⟨[⟨3, .i48⟩, ⟨9, .i8⟩]⟩ 1 3
      (by decide) (by decide)⟩

/-! ## Claim C10: one cached interpretation per page number -/

/-- **C10.** The pager's cache stores a single interpretation of page `n`,
fixed by whichever of `read_page(n)` / `read_overflow(n)` succeeds first:
a success pins the cache entry for `n` to its interpretation; any state
whose cache maps `n` to the other interpretation makes the mismatched
reader return an error with the pager state (cache and file-read log)
entirely unchanged — in particular without re-reading the file; and every
later `read_page` / `read_overflow` call (on any page number) preserves the
cached entry for `n`. -/
theorem C10_cache_discipline
    (file : Nat → Option (List Nat)) (header : DbHeader)
    (parsePageFn : List Nat → Option Page)
    (parseOvFn : List Nat → Option OverflowPage) (n : Nat) :
    (∀ s s' o, Pager.read_overflow file header parseOvFn s n = (.ok o, s') →
      cacheLookup s'.cache n = some (.overflow o)) ∧
    (∀ s s' p, Pager.read_page file header parsePageFn s n = (.ok p, s') →
      cacheLookup s'.cache n = some (.page p)) ∧
    (∀ s o, cacheLookup s.cache n = some (.overflow o) →
      Pager.read_page file header parsePageFn s n = (.err, s)) ∧
    (∀ s p, cacheLookup s.cache n = some (.page p) →
      Pager.read_overflow file header parseOvFn s n = (.err, s)) ∧
    (∀ s m r s₂ cp, Pager.read_page file header parsePageFn s m = (r, s₂) →
      cacheLookup s.cache n = some cp → cacheLookup s₂.cache n = some cp) ∧
    (∀ s m r s₂ cp,
      Pager.read_overflow file header parseOvFn s m = (r, s₂) →
      cacheLookup s.cache n = some cp → cacheLookup s₂.cache n = some cp) := by
  refine ⟨?_, ?_, ?_, ?_, ?_, ?_⟩
  · intro s s' o h
    unfold Pager.read_overflow at h
    cases hc : cacheLookup s.cache n with
    | some cp =>
      rw [hc] at h
      cases cp with
      | overflow o' =>
        injection h with h1 h2
        injection h1 with h1
        subst h1; subst h2
        exact hc
      | page p => exact absurd h (by simp)
    | none =>
      rw [hc] at h
      cases hf : file n with
      | none => rw [hf] at h; exact absurd h (by simp)
      | some buffer =>
        rw [hf] at h
        replace h :
            (match parseOvFn (buffer.take header.usable_page_size) with
             | none => (ROut.err, (⟨s.cache, n :: s.readLog⟩ : PagerState))
             | some parsed =>
               (ROut.ok parsed,
                 (⟨(n, CachedPage.overflow parsed) :: s.cache,
                   n :: s.readLog⟩ : PagerState))) = (ROut.ok o, s') := h
        cases hp : parseOvFn (buffer.take header.usable_page_size) with
        | none => rw [hp] at h; exact absurd h (by simp)
        | some parsed =>
          rw [hp] at h
          injection h with h1 h2
          injection h1 with h1
          subst h1
          rw [← h2]
          simp [cacheLookup]
  · intro s s' p h
    unfold Pager.read_page at h
    cases hc : cacheLookup s.cache n with
    | some cp =>
      rw [hc] at h
      cases cp with
      | page p' =>
        injection h with h1 h2
        injection h1 with h1
        subst h1; subst h2
        exact hc
      | overflow o => exact absurd h (by simp)
    | none =>
      rw [hc] at h
      cases hf : file n with
      | none => rw [hf] at h; exact absurd h (by simp)
      | some buffer =>
        rw [hf] at h
        replace h :
            (match parsePageFn (buffer.take header.usable_page_size) with
             | none => (ROut.err, (⟨s.cache, n :: s.readLog⟩ : PagerState))
             | some parsed =>
               (ROut.ok parsed,
                 (⟨(n, CachedPage.page parsed) :: s.cache,
                   n :: s.readLog⟩ : PagerState))) = (ROut.ok p, s') := h
        cases hp : parsePageFn (buffer.take header.usable_page_size) with
        | none => rw [hp] at h; exact absurd h (by simp)
        | some parsed =>
          rw [hp] at h
          injection h with h1 h2
          injection h1 with h1
          subst h1
          rw [← h2]
          simp [cacheLookup]
  · intro s o hc
    unfold Pager.read_page
    rw [hc]
  · intro s p hc
    unfold Pager.read_overflow
    rw [hc]
  · intro s m r s₂ cp h hc
    unfold Pager.read_page at h
    cases hm : cacheLookup s.cache m with
    | some cp' =>
      rw [hm] at h
      cases cp' with
      | page p' => injection h with h1 h2; rw [← h2]; exact hc
      | overflow o => injection h with h1 h2; rw [← h2]; exact hc
    | none =>
      have hne : m ≠ n := fun he => by rw [he, hc] at hm; exact Option.noConfusion hm
      rw [hm] at h
      cases hf : file m with
      | none => rw [hf] at h; injection h with h1 h2; rw [← h2]; exact hc
      | some buffer =>
        rw [hf] at h
        replace h :
            (match parsePageFn (buffer.take header.usable_page_size) with
             | none => (ROut.err, (⟨s.cache, m :: s.readLog⟩ : PagerState))
             | some parsed =>
               (ROut.ok parsed,
                 (⟨(m, CachedPage.page parsed) :: s.cache,
                   m :: s.readLog⟩ : PagerState))) = (r, s₂) := h
        cases hp : parsePageFn (buffer.take header.usable_page_size) with
        | none => rw [hp] at h; injection h with h1 h2; rw [← h2]; exact hc
        | some parsed =>
          rw [hp] at h
          injection h with h1 h2
          rw [← h2]
          simp only [cacheLookup, if_neg hne]
          exact hc
  · intro s m r s₂ cp h hc
    unfold Pager.read_overflow at h
    cases hm : cacheLookup s.cache m with
    | some cp' =>
      rw [hm] at h
      cases cp' with
      | overflow o => injection h with h1 h2; rw [← h2]; exact hc
      | page p' => injection h with h1 h2; rw [← h2]; exact hc
    | none =>
      have hne : m ≠ n := fun he => by rw [he, hc] at hm; exact Option.noConfusion hm
      rw [hm] at h
      cases hf : file m with
      | none => rw [hf] at h; injection h with h1 h2; rw [← h2]; exact hc
      | some buffer =>
        rw [hf] at h
        replace h :
            (match parseOvFn (buffer.take header.usable_page_size) with
             | none => (ROut.err, (⟨s.cache, m :: s.readLog⟩ : PagerState))
             | some parsed =>
               (ROut.ok parsed,
                 (⟨(m, CachedPage.overflow parsed) :: s.cache,
                   m :: s.readLog⟩ : PagerState))) = (r, s₂) := h
        cases hp : parseOvFn (buffer.take header.usable_page_size) with
        | none => rw [hp] at h; injection h with h1 h2; rw [← h2]; exact hc
        | some parsed =>
          rw [hp] at h
          injection h with h1 h2
          rw [← h2]
          simp only [cacheLookup, if_neg hne]
          exact hc

/-- Witness for `C10_cache_discipline`: on an empty pager, `read_overflow 2`
succeeds and pins the cache entry; the subsequent `read_page 2` on the
resulting state errors without touching state or read log. -/
theorem C10_cache_discipline_witness :
    Pager.read_overflow (fun _ => some []) ⟨512, 0⟩
        (fun _ => some ⟨none, []⟩) ⟨[], []⟩ 2 =
      (.ok ⟨none, []⟩, ⟨[(2, .overflow ⟨none, []⟩)], [2]⟩) ∧
    cacheLookup ([(2, CachedPage.overflow ⟨none, []⟩)]) 2 =
      some (.overflow ⟨none, []⟩) ∧
    Pager.read_page (fun _ => some []) ⟨512, 0⟩ (fun _ => some ⟨⟨.tableLeaf, 0, none⟩, []⟩)
        ⟨[(2, .overflow ⟨none, []⟩)], [2]⟩ 2 =
      (.err, ⟨[(2, .overflow ⟨none, []⟩)], [2]⟩) :=
  ⟨by decide,
    (C10_cache_discipline (fun _ => some []) ⟨512, 0⟩
        (fun _ => some ⟨⟨.tableLeaf, 0, none⟩, []⟩) (fun _ => some ⟨none, []⟩)
        2).1 ⟨[], []⟩ ⟨[(2, .overflow ⟨none, []⟩)], [2]⟩ ⟨none, []⟩
      (by decide),
    (C10_cache_discipline (fun _ => some []) ⟨512, 0⟩
        (fun _ => some ⟨⟨.tableLeaf, 0, none⟩, []⟩) (fun _ => some ⟨none, []⟩)
        2).2.2.1 ⟨[(2, .overflow ⟨none, []⟩)], [2]⟩ ⟨none, []⟩ (by decide)⟩

/-! ## Claim C3: supporting lemmas on the tree model -/

theorem TreeList.dropL_zero (tl : TreeList) : tl.dropL 0 = tl := by
  cases tl <;> rfl

theorem TreeList.getL_eq_none :
    ∀ (tl : TreeList) (i : Nat), tl.lengthL ≤ i → tl.getL i = none
  | .nil, _, _ => rfl
  | .cons p t rest, i, hi => by
    cases i with
    | zero => simp [TreeList.lengthL] at hi
    | succ j =>
      simp only [TreeList.lengthL] at hi
      exact TreeList.getL_eq_none rest j (by omega)

theorem TreeList.dropL_eq_cons :
    ∀ (tl : TreeList) (i p : Nat) (t : Tree), tl.getL i = some (p, t) →
      tl.dropL i = .cons p t (tl.dropL (i + 1))
  | .nil, i, p, t, h => by cases i <;> exact Option.noConfusion h
  | .cons q u rest, i, p, t, h => by
    cases i with
    | zero =>
      injection h with h'
      injection h' with h1 h2
      subst h1; subst h2
      rw [TreeList.dropL_zero]
      simp only [TreeList.dropL]
    | succ j =>
      have h2 := TreeList.dropL_eq_cons rest j p t h
      simp only [TreeList.dropL]
      exact h2

theorem TreeList.dropL_nil_of_le :
    ∀ (tl : TreeList) (i : Nat), tl.lengthL ≤ i → tl.dropL i = .nil
  | .nil, i, _ => by cases i <;> rfl
  | .cons p t rest, i, hi => by
    cases i with
    | zero => simp [TreeList.lengthL] at hi
    | succ j =>
      simp only [TreeList.lengthL] at hi
      simp only [TreeList.dropL]
      exact TreeList.dropL_nil_of_le rest j (by omega)

theorem TreeList.interiorCells_length :
    ∀ tl : TreeList, tl.interiorCells.length = tl.lengthL
  | .nil => rfl
  | .cons p t rest => by
    simp [TreeList.interiorCells, TreeList.lengthL,
      TreeList.interiorCells_length rest]

theorem TreeList.interiorCells_getL :
    ∀ (tl : TreeList) (i p : Nat) (t : Tree), tl.getL i = some (p, t) →
      tl.interiorCells[i]? = some (.tableInterior ⟨p⟩)
  | .nil, i, p, t, h => by cases i <;> exact Option.noConfusion h
  | .cons q u rest, i, p, t, h => by
    cases i with
    | zero =>
      injection h with h'
      injection h' with h1 h2
      subst h1
      simp [TreeList.interiorCells]
    | succ j =>
      simp only [TreeList.interiorCells, List.getElem?_cons_succ]
      exact TreeList.interiorCells_getL rest j p t h

theorem TreeList.storedL_getL (store : Nat → Option Page) :
    ∀ (tl : TreeList) (i p : Nat) (t : Tree), tl.storedL store →
      tl.getL i = some (p, t) →
      store p = some t.rootPage ∧ t.stored store
  | .nil, i, p, t, _, h => by cases i <;> exact Option.noConfusion h
  | .cons q u rest, i, p, t, hs, h => by
    obtain ⟨hq, hu, hrest⟩ := hs
    cases i with
    | zero =>
      injection h with h'
      injection h' with h1 h2
      subst h1; subst h2
      exact ⟨hq, hu⟩
    | succ j => exact TreeList.storedL_getL store rest j p t hrest h

theorem TreeList.allParseL_getL :
    ∀ (tl : TreeList) (i p : Nat) (t : Tree), tl.allParseL →
      tl.getL i = some (p, t) → t.allParse
  | .nil, i, p, t, _, h => by cases i <;> exact Option.noConfusion h
  | .cons q u rest, i, p, t, hs, h => by
    obtain ⟨hu, hrest⟩ := hs
    cases i with
    | zero =>
      injection h with h'
      injection h' with h1 h2
      subst h2
      exact hu
    | succ j => exact TreeList.allParseL_getL rest j p t hrest h

theorem frameMeasure_zero (t : Tree) : frameMeasure (t, 0) = t.size := by
  cases t with
  | leaf cells => simp [frameMeasure, Tree.size]
  | interior ch rn rt =>
    simp [frameMeasure, Tree.size, TreeList.dropL_zero, Nat.zero_le]

theorem frameRem_zero (t : Tree) : frameRem (t, 0) = t.leaves := by
  cases t with
  | leaf cells => simp [frameRem, Tree.leaves]
  | interior ch rn rt =>
    simp [frameRem, Tree.leaves, TreeList.dropL_zero, Nat.zero_le]

theorem frameMeasure_pos (d : Tree × Nat) : 0 < frameMeasure d := by
  obtain ⟨t, i⟩ := d
  cases t <;> simp [frameMeasure]

/-- `getL` hits inside the list. -/
theorem TreeList.lt_of_getL_eq_some {tl : TreeList} {i p : Nat} {t : Tree}
    (h : tl.getL i = some (p, t)) : i < tl.lengthL := by
  by_contra hc
  rw [TreeList.getL_eq_none tl i (by omega)] at h
  exact Option.noConfusion h

theorem TreeList.getL_isSome :
    ∀ (tl : TreeList) (i : Nat), i < tl.lengthL →
      ∃ p t, tl.getL i = some (p, t)
  | .nil, i, hi => by simp [TreeList.lengthL] at hi
  | .cons q u rest, i, hi => by
    cases i with
    | zero => exact ⟨q, u, rfl⟩
    | succ j =>
      simp only [TreeList.lengthL] at hi
      exact TreeList.getL_isSome rest j (by omega)

theorem decMeasure_cons (d : Tree × Nat) (ds : List (Tree × Nat)) :
    decMeasure (d :: ds) = frameMeasure d + decMeasure ds := by
  simp [decMeasure]

theorem decRem_cons (d : Tree × Nat) (ds : List (Tree × Nat)) :
    decRem (d :: ds) = frameRem d ++ decRem ds := by
  simp [decRem]

/-! ### Evaluation lemmas for one scanner step -/

theorem nextElem_cons (store : Nat → Option Page) (init : Nat)
    (f : PositionedPage) (fs : List PositionedPage) :
    nextElem store ⟨init, f :: fs⟩ = processTop init f fs := rfl

theorem next_cell_eval (pg : Page) (i : Nat) :
    (⟨pg, i⟩ : PositionedPage).next_cell = (pg.cells[i]?, ⟨pg, i + 1⟩) := rfl

theorem next_page_leaf (cells : List TableLeafCell) (i : Nat) :
    (⟨(Tree.leaf cells).rootPage, i⟩ : PositionedPage).next_page =
      (none, ⟨(Tree.leaf cells).rootPage, i⟩) := by
  unfold PositionedPage.next_page
  rw [if_neg]
  rintro ⟨hty, _⟩
  simp [Tree.rootPage] at hty

theorem next_page_interior_mid (ch : TreeList) (rn : Nat) (rt : Tree)
    (i : Nat) (hne : i ≠ ch.lengthL) :
    (⟨(Tree.interior ch rn rt).rootPage, i⟩ : PositionedPage).next_page =
      (none, ⟨(Tree.interior ch rn rt).rootPage, i⟩) := by
  unfold PositionedPage.next_page
  rw [if_neg]
  rintro ⟨_, hcell⟩
  simp only [Tree.rootPage] at hcell
  rw [TreeList.interiorCells_length] at hcell
  exact hne hcell

theorem next_page_interior_at (ch : TreeList) (rn : Nat) (rt : Tree) :
    (⟨(Tree.interior ch rn rt).rootPage, ch.lengthL⟩ :
        PositionedPage).next_page =
      (some rn, ⟨(Tree.interior ch rn rt).rootPage, ch.lengthL + 1⟩) := by
  have hcond :
      (⟨(Tree.interior ch rn rt).rootPage, ch.lengthL⟩ :
          PositionedPage).page.header.page_type = .tableInterior ∧
      (⟨(Tree.interior ch rn rt).rootPage, ch.lengthL⟩ :
          PositionedPage).cell =
        (⟨(Tree.interior ch rn rt).rootPage, ch.lengthL⟩ :
          PositionedPage).page.cells.length := by
    refine ⟨rfl, ?_⟩
    show ch.lengthL = (Tree.interior ch rn rt).rootPage.cells.length
    simp [Tree.rootPage, TreeList.interiorCells_length]
  unfold PositionedPage.next_page
  rw [if_pos hcond]
  rfl

/-- `next_elem` on a frame whose `next_page` does not fire: take the cell
at the current index. -/
theorem processTop_no_page (init : Nat) (top : PositionedPage)
    (rest : List PositionedPage) (h : top.next_page = (none, top)) :
    processTop init top rest =
      match top.page.cells[top.cell]? with
      | none => .ok (none, ⟨init, ⟨top.page, top.cell + 1⟩ :: rest⟩)
      | some (.tableLeaf c) =>
        match parse_record_header c.payload with
        | none => .err
        | some hd =>
          .ok (some (.cursor ⟨hd, c.payload, c.first_overflow⟩),
            ⟨init, ⟨top.page, top.cell + 1⟩ :: rest⟩)
      | some (.tableInterior c) =>
        .ok (some (.page c.left_child_page),
          ⟨init, ⟨top.page, top.cell + 1⟩ :: rest⟩) := by
  unfold processTop
  rw [h]
  rfl

theorem nextRecord_succ (store : Nat → Option Page) (fuel : Nat)
    (s : ScanState) :
    nextRecord store (fuel + 1) s =
      match nextElem store s with
      | .err => .err
      | .fatal => .fatal
      | .ok (some (.cursor c), s1) => .ok (some c, s1)
      | .ok (some (.page p), s1) =>
        match store p with
        | none => .err
        | some new_page =>
          nextRecord store fuel
            ⟨s1.initial_page, ⟨new_page, 0⟩ :: s1.page_stack⟩
      | .ok (none, s1) =>
        if s1.page_stack.length > 1 then
          nextRecord store fuel ⟨s1.initial_page, s1.page_stack.tail⟩
        else .ok (none, s1) := rfl

/-- `next_elem` on a frame whose `next_page` hands out a page number. -/
theorem processTop_some_page (init : Nat) (top top1 : PositionedPage)
    (rest : List PositionedPage) (pgnum : Nat)
    (h : top.next_page = (some pgnum, top1)) :
    processTop init top rest =
      .ok (some (.page pgnum), ⟨init, top1 :: rest⟩) := by
  unfold processTop
  rw [h]

theorem nextRecord_of_cursor {store : Nat → Option Page} {s s1 : ScanState}
    {c : Cursor} (fuel : Nat)
    (hstep : nextElem store s = .ok (some (.cursor c), s1)) :
    nextRecord store (fuel + 1) s = .ok (some c, s1) := by
  rw [nextRecord_succ, hstep]

theorem nextRecord_of_page {store : Nat → Option Page} {s s1 : ScanState}
    {p : Nat} {pg : Page} (fuel : Nat)
    (hstep : nextElem store s = .ok (some (.page p), s1))
    (hsp : store p = some pg) :
    nextRecord store (fuel + 1) s =
      nextRecord store fuel ⟨s1.initial_page, ⟨pg, 0⟩ :: s1.page_stack⟩ := by
  rw [nextRecord_succ, hstep]
  simp only [hsp]

theorem nextRecord_of_none_deep {store : Nat → Option Page}
    {s s1 : ScanState} (fuel : Nat)
    (hstep : nextElem store s = .ok (none, s1))
    (hlen : s1.page_stack.length > 1) :
    nextRecord store (fuel + 1) s =
      nextRecord store fuel ⟨s1.initial_page, s1.page_stack.tail⟩ := by
  rw [nextRecord_succ, hstep]
  simp only [if_pos hlen]

theorem nextRecord_of_none_top {store : Nat → Option Page}
    {s s1 : ScanState} (fuel : Nat)
    (hstep : nextElem store s = .ok (none, s1))
    (hlen : ¬ s1.page_stack.length > 1) :
    nextRecord store (fuel + 1) s = .ok (none, s1) := by
  rw [nextRecord_succ, hstep]
  simp only [if_neg hlen]

theorem nextElem_leaf_yield (store : Nat → Option Page) (init : Nat)
    (cells : List TableLeafCell) (i : Nat) (fs : List PositionedPage)
    (c : TableLeafCell) (hd : RecordHeader)
    (hc : cells[i]? = some c)
    (hhd : parse_record_header c.payload = some hd) :
    nextElem store ⟨init, ⟨(Tree.leaf cells).rootPage, i⟩ :: fs⟩ =
      .ok (some (.cursor ⟨hd, c.payload, c.first_overflow⟩),
        ⟨init, ⟨(Tree.leaf cells).rootPage, i + 1⟩ :: fs⟩) := by
  rw [nextElem_cons, processTop_no_page _ _ _ (next_page_leaf cells i)]
  have hscrut : (Tree.leaf cells).rootPage.cells[i]? =
      some (Cell.tableLeaf c) := by
    simp [Tree.rootPage, List.getElem?_map, hc]
  simp only [hscrut, hhd]

theorem nextElem_leaf_end (store : Nat → Option Page) (init : Nat)
    (cells : List TableLeafCell) (i : Nat) (fs : List PositionedPage)
    (hi : cells.length ≤ i) :
    nextElem store ⟨init, ⟨(Tree.leaf cells).rootPage, i⟩ :: fs⟩ =
      .ok (none, ⟨init, ⟨(Tree.leaf cells).rootPage, i + 1⟩ :: fs⟩) := by
  rw [nextElem_cons, processTop_no_page _ _ _ (next_page_leaf cells i)]
  have hscrut : (Tree.leaf cells).rootPage.cells[i]? = none := by
    apply List.getElem?_eq_none
    simp [Tree.rootPage]
    omega
  simp only [hscrut]

theorem nextElem_interior_child (store : Nat → Option Page) (init : Nat)
    (ch : TreeList) (rn : Nat) (rt : Tree) (i : Nat)
    (fs : List PositionedPage) (p : Nat) (t : Tree)
    (hget : ch.getL i = some (p, t)) :
    nextElem store ⟨init, ⟨(Tree.interior ch rn rt).rootPage, i⟩ :: fs⟩ =
      .ok (some (.page p),
        ⟨init, ⟨(Tree.interior ch rn rt).rootPage, i + 1⟩ :: fs⟩) := by
  have hi := TreeList.lt_of_getL_eq_some hget
  rw [nextElem_cons,
    processTop_no_page _ _ _ (next_page_interior_mid ch rn rt i (by omega))]
  have hscrut : (Tree.interior ch rn rt).rootPage.cells[i]? =
      some (Cell.tableInterior ⟨p⟩) := by
    simp only [Tree.rootPage]
    exact TreeList.interiorCells_getL ch i p t hget
  simp only [hscrut]

theorem nextElem_interior_rightmost (store : Nat → Option Page) (init : Nat)
    (ch : TreeList) (rn : Nat) (rt : Tree) (fs : List PositionedPage) :
    nextElem store
        ⟨init, ⟨(Tree.interior ch rn rt).rootPage, ch.lengthL⟩ :: fs⟩ =
      .ok (some (.page rn),
        ⟨init, ⟨(Tree.interior ch rn rt).rootPage, ch.lengthL + 1⟩ :: fs⟩) := by
  rw [nextElem_cons,
    processTop_some_page _ _ _ _ rn (next_page_interior_at ch rn rt)]

theorem nextElem_interior_end (store : Nat → Option Page) (init : Nat)
    (ch : TreeList) (rn : Nat) (rt : Tree) (i : Nat)
    (fs : List PositionedPage) (hi : ch.lengthL < i) :
    nextElem store ⟨init, ⟨(Tree.interior ch rn rt).rootPage, i⟩ :: fs⟩ =
      .ok (none,
        ⟨init, ⟨(Tree.interior ch rn rt).rootPage, i + 1⟩ :: fs⟩) := by
  rw [nextElem_cons,
    processTop_no_page _ _ _ (next_page_interior_mid ch rn rt i (by omega))]
  have hscrut : (Tree.interior ch rn rt).rootPage.cells[i]? = none := by
    apply List.getElem?_eq_none
    simp only [Tree.rootPage]
    rw [TreeList.interiorCells_length]
    omega
  simp only [hscrut]

/-- The key refinement lemma: from a faithfully decorated scanner state,
one `next_record` call (with fuel equal to the decoration's remaining step
count) yields the head of the remaining leaf-cell sequence and preserves
the decoration, or reports the end of the scan when nothing remains. -/
theorem nextRecord_run (store : Nat → Option Page) :
    ∀ fuel (init : Nat) (stack : List PositionedPage)
      (dec : List (Tree × Nat)),
      stackInv store stack dec → dec ≠ [] → decMeasure dec = fuel →
      (decRem dec = [] →
        ∃ s1, nextRecord store fuel ⟨init, stack⟩ = .ok (none, s1)) ∧
      (∀ c cs, decRem dec = c :: cs →
        ∃ s1 dec1, nextRecord store fuel ⟨init, stack⟩ =
            .ok (some (cursorOf c), s1) ∧
          stackInv store s1.page_stack dec1 ∧ dec1 ≠ [] ∧
          decRem dec1 = cs ∧ decMeasure dec1 < fuel) := by
  intro fuel
  induction fuel with
  | zero =>
    intro init stack dec hinv hne hm
    exfalso
    cases dec with
    | nil => exact hne rfl
    | cons d ds =>
      have hpos := frameMeasure_pos d
      rw [decMeasure_cons] at hm
      omega
  | succ fuel ih =>
    intro init stack dec hinv hne hm
    cases stack with
    | nil =>
      cases dec with
      | nil => exact absurd rfl hne
      | cons d ds => exact absurd hinv (by simp [stackInv])
    | cons f fs =>
      cases dec with
      | nil => exact absurd rfl hne
      | cons d ds =>
        obtain ⟨t, i⟩ := d
        obtain ⟨hframe, hrest⟩ := hinv
        obtain ⟨fpage, fcell⟩ := f
        obtain ⟨hpage, hcell, hstored, hparse, hbound⟩ := hframe
        replace hpage : fpage = t.rootPage := hpage
        replace hcell : i = fcell := Eq.symm hcell
        subst hpage
        subst hcell
        rw [decMeasure_cons] at hm
        cases t with
        | leaf cells =>
          replace hbound : i ≤ cells.length := hbound
          replace hparse :
              ∀ c ∈ cells, (parse_record_header c.payload).isSome := hparse
          rcases Nat.lt_or_ge i cells.length with hi | hi
          · -- a leaf cell is yielded
            obtain ⟨c, hc⟩ : ∃ c, cells[i]? = some c :=
              ⟨cells[i], List.getElem?_eq_getElem hi⟩
            obtain ⟨hd, hhd⟩ := Option.isSome_iff_exists.mp
              (hparse c (List.getElem?_mem hc))
            have hco : cursorOf c = ⟨hd, c.payload, c.first_overflow⟩ := by
              unfold cursorOf
              rw [hhd]
              rfl
            have hstep := nextElem_leaf_yield store init cells i fs c hd hc hhd
            have hnr := nextRecord_of_cursor fuel hstep
            have hdrop : cells.drop i = c :: cells.drop (i + 1) :=
              drop_eq_cons_of_getElem hc
            have hrem : decRem ((Tree.leaf cells, i) :: ds) =
                c :: (cells.drop (i + 1) ++ decRem ds) := by
              rw [decRem_cons]
              have : frameRem (Tree.leaf cells, i) = cells.drop i := rfl
              rw [this, hdrop]
              simp
            constructor
            · intro h0
              rw [hrem] at h0
              exact absurd h0 (by simp)
            · intro c' cs' hcc
              rw [hrem] at hcc
              injection hcc with hc1 hc2
              subst hc1
              refine ⟨⟨init, ⟨(Tree.leaf cells).rootPage, i + 1⟩ :: fs⟩,
                (Tree.leaf cells, i + 1) :: ds, ?_, ?_, by simp, ?_, ?_⟩
              · rw [hnr, hco]
              · exact ⟨⟨rfl, rfl, trivial, hparse, by omega⟩, hrest⟩
              · rw [← hc2, decRem_cons]
                have : frameRem (Tree.leaf cells, i + 1) =
                    cells.drop (i + 1) := rfl
                rw [this]
              · rw [decMeasure_cons]
                have h1 : frameMeasure (Tree.leaf cells, i) =
                    cells.length - i + 1 := rfl
                have h2 : frameMeasure (Tree.leaf cells, i + 1) =
                    cells.length - (i + 1) + 1 := rfl
                omega
          · -- the leaf page is exhausted: pop or finish
            have hstep := nextElem_leaf_end store init cells i fs (by omega)
            have hremtop : frameRem (Tree.leaf cells, i) = [] := by
              have : frameRem (Tree.leaf cells, i) = cells.drop i := rfl
              rw [this]
              exact List.drop_eq_nil_of_le (by omega)
            have hmtop : frameMeasure (Tree.leaf cells, i) = 1 := by
              have : frameMeasure (Tree.leaf cells, i) =
                  cells.length - i + 1 := rfl
              omega
            cases fs with
            | nil =>
              have hds : ds = [] := by
                cases ds with
                | nil => rfl
                | cons d2 ds2 => exact absurd hrest (by simp [stackInv])
              subst hds
              have hnr := nextRecord_of_none_top fuel hstep (by simp)
              constructor
              · intro _
                exact ⟨_, hnr⟩
              · intro c' cs' hcc
                rw [decRem_cons, hremtop] at hcc
                simp [decRem] at hcc
            | cons g gs =>
              obtain ⟨d2, ds2, rfl⟩ : ∃ d2 ds2, ds = d2 :: ds2 := by
                cases ds with
                | nil => exact absurd hrest (by simp [stackInv])
                | cons d2 ds2 => exact ⟨d2, ds2, rfl⟩
              have hnr := nextRecord_of_none_deep fuel hstep
                (by simp only [List.length_cons]; omega)
              have hm2 : decMeasure (d2 :: ds2) = fuel := by omega
              have hih := ih init (g :: gs) (d2 :: ds2) hrest (by simp) hm2
              have hrem2 : decRem ((Tree.leaf cells, i) :: d2 :: ds2) =
                  decRem (d2 :: ds2) := by
                rw [decRem_cons, hremtop]
                simp
              constructor
              · intro h0
                rw [hrem2] at h0
                obtain ⟨s1, hs1⟩ := hih.1 h0
                exact ⟨s1, by rw [hnr]; exact hs1⟩
              · intro c' cs' hcc
                rw [hrem2] at hcc
                obtain ⟨s1, dec1, ha, hb, hc3, hd3, he3⟩ := hih.2 c' cs' hcc
                exact ⟨s1, dec1, by rw [hnr]; exact ha, hb, hc3, hd3,
                  by omega⟩
        | interior ch rn rt =>
          replace hbound : i ≤ ch.lengthL + 1 := hbound
          obtain ⟨hstoredL, hrn, hrts⟩ :
              ch.storedL store ∧ store rn = some rt.rootPage ∧
                rt.stored store := hstored
          obtain ⟨hparseL, hparseR⟩ : ch.allParseL ∧ rt.allParse := hparse
          rcases Nat.lt_trichotomy i ch.lengthL with hi | hi | hi
          · -- descend into the left child at index i
            obtain ⟨p, ti, hget⟩ := TreeList.getL_isSome ch i hi
            have hstep :=
              nextElem_interior_child store init ch rn rt i fs p ti hget
            obtain ⟨hsp, hstp⟩ :=
              TreeList.storedL_getL store ch i p ti hstoredL hget
            have hparseti := TreeList.allParseL_getL ch i p ti hparseL hget
            have hnr := nextRecord_of_page fuel hstep hsp
            have hdropc := TreeList.dropL_eq_cons ch i p ti hget
            have hw1 : (ch.dropL i).weight =
                (1 + ti.size) + (ch.dropL (i + 1)).weight := by
              rw [hdropc]
              rfl
            have hfm1 : frameMeasure (Tree.interior ch rn rt, i) =
                (ch.dropL i).weight +
                  (if i ≤ ch.lengthL then 1 + rt.size else 0) + 1 := rfl
            have hfm2 : frameMeasure (Tree.interior ch rn rt, i + 1) =
                (ch.dropL (i + 1)).weight +
                  (if i + 1 ≤ ch.lengthL then 1 + rt.size else 0) + 1 := rfl
            have hif1 : (if i ≤ ch.lengthL then 1 + rt.size else 0) =
                1 + rt.size := if_pos (by omega)
            have hif2 : (if i + 1 ≤ ch.lengthL then 1 + rt.size else 0) =
                1 + rt.size := if_pos (by omega)
            have hm2 : decMeasure
                ((ti, 0) :: (Tree.interior ch rn rt, i + 1) :: ds) =
                  fuel := by
              rw [decMeasure_cons, decMeasure_cons, frameMeasure_zero]
              rw [hfm1, hw1, hif1] at hm
              rw [hfm2, hif2]
              omega
            have hfr1 : frameRem (Tree.interior ch rn rt, i) =
                ti.leaves ++ ((ch.dropL (i + 1)).leavesL ++ rt.leaves) := by
              have h0 : frameRem (Tree.interior ch rn rt, i) =
                  (ch.dropL i).leavesL ++
                    (if i ≤ ch.lengthL then rt.leaves else []) := rfl
              rw [h0, hdropc, if_pos (by omega : i ≤ ch.lengthL)]
              have h1 : (TreeList.cons p ti (ch.dropL (i + 1))).leavesL =
                  ti.leaves ++ (ch.dropL (i + 1)).leavesL := rfl
              rw [h1, List.append_assoc]
            have hfr2 : frameRem (Tree.interior ch rn rt, i + 1) =
                (ch.dropL (i + 1)).leavesL ++ rt.leaves := by
              have h0 : frameRem (Tree.interior ch rn rt, i + 1) =
                  (ch.dropL (i + 1)).leavesL ++
                    (if i + 1 ≤ ch.lengthL then rt.leaves else []) := rfl
              rw [h0, if_pos (by omega : i + 1 ≤ ch.lengthL)]
            have hremeq : decRem
                ((ti, 0) :: (Tree.interior ch rn rt, i + 1) :: ds) =
                  decRem ((Tree.interior ch rn rt, i) :: ds) := by
              rw [decRem_cons, decRem_cons, decRem_cons, frameRem_zero,
                hfr1, hfr2]
              simp [List.append_assoc]
            have hinv2 : stackInv store
                (⟨ti.rootPage, 0⟩ ::
                  ⟨(Tree.interior ch rn rt).rootPage, i + 1⟩ :: fs)
                ((ti, 0) :: (Tree.interior ch rn rt, i + 1) :: ds) := by
              refine ⟨⟨rfl, rfl, hstp, hparseti, ?_⟩,
                ⟨rfl, rfl, ⟨hstoredL, hrn, hrts⟩, ⟨hparseL, hparseR⟩,
                  by omega⟩, hrest⟩
              cases ti with
              | leaf cs => exact Nat.zero_le _
              | interior a b c => exact Nat.zero_le _
            have hih := ih init _ _ hinv2 (by simp) hm2
            constructor
            · intro h0
              rw [← hremeq] at h0
              obtain ⟨s1, hs1⟩ := hih.1 h0
              exact ⟨s1, by rw [hnr]; exact hs1⟩
            · intro c' cs' hcc
              rw [← hremeq] at hcc
              obtain ⟨s1, dec1, ha, hb, hc3, hd3, he3⟩ := hih.2 c' cs' hcc
              exact ⟨s1, dec1, by rw [hnr]; exact ha, hb, hc3, hd3,
                by omega⟩
          · -- descend into the rightmost child
            subst hi
            have hstep := nextElem_interior_rightmost store init ch rn rt fs
            have hnr := nextRecord_of_page fuel hstep hrn
            have hdnil : ch.dropL ch.lengthL = .nil :=
              TreeList.dropL_nil_of_le ch _ (le_refl _)
            have hdnil2 : ch.dropL (ch.lengthL + 1) = .nil :=
              TreeList.dropL_nil_of_le ch _ (by omega)
            have hfm1 : frameMeasure (Tree.interior ch rn rt, ch.lengthL) =
                (ch.dropL ch.lengthL).weight +
                  (if ch.lengthL ≤ ch.lengthL then 1 + rt.size else 0) +
                  1 := rfl
            have hfm2 : frameMeasure
                (Tree.interior ch rn rt, ch.lengthL + 1) =
                (ch.dropL (ch.lengthL + 1)).weight +
                  (if ch.lengthL + 1 ≤ ch.lengthL then 1 + rt.size else 0) +
                  1 := rfl
            have hwnil : (TreeList.nil).weight = 0 := rfl
            have hm2 : decMeasure
                ((rt, 0) ::
                  (Tree.interior ch rn rt, ch.lengthL + 1) :: ds) =
                  fuel := by
              rw [decMeasure_cons, decMeasure_cons, frameMeasure_zero]
              rw [hfm1, hdnil, hwnil, if_pos (le_refl _)] at hm
              rw [hfm2, hdnil2, hwnil, if_neg (by omega)]
              omega
            have hfr1 : frameRem (Tree.interior ch rn rt, ch.lengthL) =
                rt.leaves := by
              have h0 : frameRem (Tree.interior ch rn rt, ch.lengthL) =
                  (ch.dropL ch.lengthL).leavesL ++
                    (if ch.lengthL ≤ ch.lengthL then rt.leaves else []) :=
                rfl
              rw [h0, hdnil, if_pos (le_refl _)]
              rfl
            have hfr2 : frameRem
                (Tree.interior ch rn rt, ch.lengthL + 1) = [] := by
              have h0 : frameRem (Tree.interior ch rn rt, ch.lengthL + 1) =
                  (ch.dropL (ch.lengthL + 1)).leavesL ++
                    (if ch.lengthL + 1 ≤ ch.lengthL then rt.leaves
                     else []) := rfl
              rw [h0, hdnil2, if_neg (by omega)]
              rfl
            have hremeq : decRem
                ((rt, 0) ::
                  (Tree.interior ch rn rt, ch.lengthL + 1) :: ds) =
                  decRem ((Tree.interior ch rn rt, ch.lengthL) :: ds) := by
              rw [decRem_cons, decRem_cons, decRem_cons, frameRem_zero,
                hfr1, hfr2]
              simp
            have hinv2 : stackInv store
                (⟨rt.rootPage, 0⟩ ::
                  ⟨(Tree.interior ch rn rt).rootPage, ch.lengthL + 1⟩ :: fs)
                ((rt, 0) ::
                  (Tree.interior ch rn rt, ch.lengthL + 1) :: ds) := by
              refine ⟨⟨rfl, rfl, hrts, hparseR, ?_⟩,
                ⟨rfl, rfl, ⟨hstoredL, hrn, hrts⟩, ⟨hparseL, hparseR⟩,
                  by omega⟩, hrest⟩
              cases rt with
              | leaf cs => exact Nat.zero_le _
              | interior a b c => exact Nat.zero_le _
            have hih := ih init _ _ hinv2 (by simp) hm2
            constructor
            · intro h0
              rw [← hremeq] at h0
              obtain ⟨s1, hs1⟩ := hih.1 h0
              exact ⟨s1, by rw [hnr]; exact hs1⟩
            · intro c' cs' hcc
              rw [← hremeq] at hcc
              obtain ⟨s1, dec1, ha, hb, hc3, hd3, he3⟩ := hih.2 c' cs' hcc
              exact ⟨s1, dec1, by rw [hnr]; exact ha, hb, hc3, hd3,
                by omega⟩
          · -- the interior page is exhausted: pop or finish
            have hieq : i = ch.lengthL + 1 := by omega
            have hstep :=
              nextElem_interior_end store init ch rn rt i fs (by omega)
            have hdnil : ch.dropL i = .nil :=
              TreeList.dropL_nil_of_le ch _ (by omega)
            have hremtop : frameRem (Tree.interior ch rn rt, i) = [] := by
              have h0 : frameRem (Tree.interior ch rn rt, i) =
                  (ch.dropL i).leavesL ++
                    (if i ≤ ch.lengthL then rt.leaves else []) := rfl
              rw [h0, hdnil, if_neg (by omega)]
              rfl
            have hmtop : frameMeasure (Tree.interior ch rn rt, i) = 1 := by
              have h0 : frameMeasure (Tree.interior ch rn rt, i) =
                  (ch.dropL i).weight +
                    (if i ≤ ch.lengthL then 1 + rt.size else 0) + 1 := rfl
              rw [h0, hdnil, if_neg (by omega)]
              rfl
            cases fs with
            | nil =>
              have hds : ds = [] := by
                cases ds with
                | nil => rfl
                | cons d2 ds2 => exact absurd hrest (by simp [stackInv])
              subst hds
              have hnr := nextRecord_of_none_top fuel hstep (by simp)
              constructor
              · intro _
                exact ⟨_, hnr⟩
              · intro c' cs' hcc
                rw [decRem_cons, hremtop] at hcc
                simp [decRem] at hcc
            | cons g gs =>
              obtain ⟨d2, ds2, rfl⟩ : ∃ d2 ds2, ds = d2 :: ds2 := by
                cases ds with
                | nil => exact absurd hrest (by simp [stackInv])
                | cons d2 ds2 => exact ⟨d2, ds2, rfl⟩
              have hnr := nextRecord_of_none_deep fuel hstep
                (by simp only [List.length_cons]; omega)
              have hm2 : decMeasure (d2 :: ds2) = fuel := by omega
              have hih := ih init (g :: gs) (d2 :: ds2) hrest (by simp) hm2
              have hrem2 : decRem
                  ((Tree.interior ch rn rt, i) :: d2 :: ds2) =
                    decRem (d2 :: ds2) := by
                rw [decRem_cons, hremtop]
                simp
              constructor
              · intro h0
                rw [hrem2] at h0
                obtain ⟨s1, hs1⟩ := hih.1 h0
                exact ⟨s1, by rw [hnr]; exact hs1⟩
              · intro c' cs' hcc
                rw [hrem2] at hcc
                obtain ⟨s1, dec1, ha, hb, hc3, hd3, he3⟩ := hih.2 c' cs' hcc
                exact ⟨s1, dec1, by rw [hnr]; exact ha, hb, hc3, hd3,
                  by omega⟩

/-- Extra fuel does not change a `next_record` run that completed. -/
theorem nextRecord_mono (store : Nat → Option Page) :
    ∀ (fuel : Nat) (s : ScanState) (r : Option Cursor × ScanState),
      nextRecord store fuel s = .ok r →
      nextRecord store (fuel + 1) s = .ok r := by
  intro fuel
  induction fuel with
  | zero =>
    intro s r h
    exact absurd h (by simp [nextRecord])
  | succ fuel ih =>
    intro s r h
    rw [nextRecord_succ] at h
    rw [nextRecord_succ]
    cases he : nextElem store s with
    | err => rw [he] at h; exact absurd h (by simp)
    | fatal => rw [he] at h; exact absurd h (by simp)
    | ok pr =>
      obtain ⟨oe, s1⟩ := pr
      cases oe with
      | none =>
        simp only [he] at h ⊢
        by_cases hl : s1.page_stack.length > 1
        · rw [if_pos hl] at h ⊢
          exact ih _ _ h
        · rw [if_neg hl] at h ⊢
          exact h
      | some el =>
        cases el with
        | cursor c =>
          simp only [he] at h ⊢
          exact h
        | page p =>
          simp only [he] at h ⊢
          cases hsp : store p with
          | none =>
            rw [hsp] at h
            exact absurd h (by simp)
          | some pg =>
            rw [hsp] at h
            exact ih _ _ h

theorem nextRecord_mono_le (store : Nat → Option Page) (f : Nat) :
    ∀ (g : Nat) (s : ScanState) (r : Option Cursor × ScanState), f ≤ g →
      nextRecord store f s = .ok r → nextRecord store g s = .ok r := by
  intro g
  induction g with
  | zero =>
    intro s r hle h
    have hf : f = 0 := by omega
    rw [← hf]
    exact h
  | succ g ihg =>
    intro s r hle h
    rcases Nat.lt_or_ge f (g + 1) with hlt | hge
    · exact nextRecord_mono store g s r (ihg s r (by omega) h)
    · have hfe : f = g + 1 := by omega
      rw [← hfe]
      exact h

theorem scanRecords_succ (store : Nat → Option Page) (F k : Nat)
    (s : ScanState) :
    scanRecords store F (k + 1) s =
      match nextRecord store F s with
      | .err => none
      | .fatal => none
      | .ok (none, _) => some []
      | .ok (some c, s1) => (scanRecords store F k s1).map (c :: ·) := rfl

/-- Running the whole scan: with a uniform per-call fuel `F` at least the
remaining step count, `rem.length + 1` calls to `next_record` yield exactly
the remaining leaf cells (as cursors) and then `none`. -/
theorem scanRecords_run (store : Nat → Option Page) (F : Nat) :
    ∀ (rem : List TableLeafCell) (init : Nat)
      (stack : List PositionedPage) (dec : List (Tree × Nat)),
      stackInv store stack dec → dec ≠ [] → decRem dec = rem →
      decMeasure dec ≤ F →
      scanRecords store F (rem.length + 1) ⟨init, stack⟩ =
        some (rem.map cursorOf) := by
  intro rem
  induction rem with
  | nil =>
    intro init stack dec hinv hne hrem hle
    obtain ⟨s1, hs1⟩ :=
      (nextRecord_run store (decMeasure dec) init stack dec hinv hne rfl).1
        hrem
    have hs1F : nextRecord store F ⟨init, stack⟩ = .ok (none, s1) :=
      nextRecord_mono_le store _ F _ _ hle hs1
    simp [scanRecords, hs1F]
  | cons c cs ihr =>
    intro init stack dec hinv hne hrem hle
    obtain ⟨s1, dec1, ha, hb, hc1, hd1, he1⟩ :=
      (nextRecord_run store (decMeasure dec) init stack dec hinv hne rfl).2
        c cs hrem
    obtain ⟨init1, stack1⟩ := s1
    replace hb : stackInv store stack1 dec1 := hb
    have haF := nextRecord_mono_le store _ F _ _ hle ha
    have hih := ihr init1 stack1 dec1 hb hc1 hd1 (by omega)
    show scanRecords store F (cs.length + 1 + 1) ⟨init, stack⟩ = _
    rw [scanRecords_succ, haF]
    show (scanRecords store F (cs.length + 1) ⟨init1, stack1⟩).map
        (List.cons (cursorOf c)) = some ((c :: cs).map cursorOf)
    rw [hih]
    simp

/-- The first `next_record` call on an empty stack reads the initial page
and then behaves like a call on a stack holding that page at cell 0. -/
theorem nextRecord_empty (store : Nat → Option Page) (init : Nat)
    (pg : Page) (hroot : store init = some pg) :
    ∀ fuel, nextRecord store fuel ⟨init, []⟩ =
      nextRecord store fuel ⟨init, [⟨pg, 0⟩]⟩ := by
  intro fuel
  cases fuel with
  | zero => rfl
  | succ fuel =>
    rw [nextRecord_succ, nextRecord_succ]
    have he : nextElem store ⟨init, []⟩ = nextElem store ⟨init, [⟨pg, 0⟩]⟩ := by
      show (match store init with
            | none => ROut.err
            | some pg2 => processTop init ⟨pg2, 0⟩ []) =
          processTop init ⟨pg, 0⟩ []
      rw [hroot]
    rw [he]

theorem scanRecords_empty (store : Nat → Option Page) (init : Nat)
    (pg : Page) (F : Nat) (hroot : store init = some pg) :
    ∀ k, scanRecords store F k ⟨init, []⟩ =
      scanRecords store F k ⟨init, [⟨pg, 0⟩]⟩ := by
  intro k
  cases k with
  | zero => rfl
  | succ k =>
    simp only [scanRecords]
    rw [nextRecord_empty store init pg hroot F]

/-- **C3.** For every well-formed table B-tree (each interior page listing
its left-child cells in order with the rightmost child last), repeatedly
calling `Scanner::next_record` from a fresh scanner on the root page yields
exactly one cursor per leaf cell — no duplicates, no omissions — in the
tree's depth-first order (for each interior page: all left children in
cell order, then the rightmost child; with keys stored in ascending order
this is ascending ROWID order), and the following call returns `None`:
`leaves.length + 1` calls produce exactly `leaves.map cursorOf` and then
`none`.  `t.size` bounds the inner loop of a single `next_record` call,
which the Rust code bounds by the traversal itself. -/
theorem C3_scanner_yields_leaves_in_order (store : Nat → Option Page)
    (root : Nat) (t : Tree) (hrep : Represents store root t)
    (hparse : t.allParse) :
    scanRecords store t.size (t.leaves.length + 1) ⟨root, []⟩ =
      some (t.leaves.map cursorOf) := by
  obtain ⟨hroot, hstored⟩ := hrep
  rw [scanRecords_empty store root t.rootPage t.size hroot
    (t.leaves.length + 1)]
  apply scanRecords_run store t.size t.leaves root [⟨t.rootPage, 0⟩] [(t, 0)]
  · refine ⟨⟨rfl, rfl, hstored, hparse, ?_⟩, trivial⟩
    cases t with
    | leaf cs => exact Nat.zero_le _
    | interior a b c => exact Nat.zero_le _
  · simp
  · rw [decRem_cons, frameRem_zero]
    simp [decRem]
  · rw [decMeasure_cons, frameMeasure_zero]
    simp [decMeasure]

/-- Witness for `C3_scanner_yields_leaves_in_order` on `exampleTree`
(interior root, one left child, one rightmost child, one record each). -/
theorem C3_scanner_yields_leaves_in_order_witness :
    Represents exampleStore 1 exampleTree ∧ exampleTree.allParse ∧
    scanRecords exampleStore exampleTree.size
        (exampleTree.leaves.length + 1) ⟨1, []⟩ =
      some (exampleTree.leaves.map cursorOf) :=
  ⟨⟨rfl, ⟨rfl, True.intro, True.intro⟩, rfl, True.intro⟩,
    ⟨⟨show ∀ c ∈ [TableLeafCell.mk [1] none],
        (parse_record_header c.payload).isSome = true by decide, True.intro⟩,
      show ∀ c ∈ [TableLeafCell.mk [2, 1] none],
        (parse_record_header c.payload).isSome = true by decide⟩,
    C3_scanner_yields_leaves_in_order exampleStore 1 exampleTree
      ⟨rfl, ⟨rfl, True.intro, True.intro⟩, rfl, True.intro⟩
      ⟨⟨show ∀ c ∈ [TableLeafCell.mk [1] none],
          (parse_record_header c.payload).isSome = true by decide,
        True.intro⟩,
        show ∀ c ∈ [TableLeafCell.mk [2, 1] none],
          (parse_record_header c.payload).isSome = true by decide⟩⟩

end Rqlite
